import Mathlib

/-!
Verification of the markdown rendering engine in `src/render.rs` of skibitsky/mdview.

This file gives a shallow embedding of the rendering core: the ratatui style
model (`Style`, `Span`), the table column-width budgeting algorithm
(`budget_columns`), the style-preserving word-wrap engine (`wrap_cell_spans`
and its helpers), the table renderer (`render_table`, `build_wrapped_row`,
`build_border`) and the document state machine (`Renderer`, `process`).

Embedding conventions:
  * Rust `String`/`&str` values are embedded as `List Char`; `Vec<T>` as
    `List T`.
  * Rust `Vec` stacks (style stack, list stack), whose top is the *last*
    element, are embedded as Lean lists with the top at the *head*
    (`push` = cons, `last()` = head, `pop` = tail).
  * `usize` arithmetic uses `Nat`, whose subtraction is exactly Rust's
    `saturating_sub`; the `u64` ordered-list counter wraps modulo `2 ^ 64`.
  * Imperative loops become structural recursions threading the mutable
    state; an early `return` inside a loop becomes an `Except` result.
  * The external collaborators are parameters: the markdown tokenizer is
    replaced by an explicit `Event` list (§6 of the spec treats the event
    stream as the input), and the syntax highlighter `highlight_code` is a
    function argument `hl`.
-/

/-- Colors used by the renderer (subset of `ratatui::style::Color` that the
source mentions, plus the indexed palette). -/
inductive Color where
  | black
  | blue
  | cyan
  | darkGray
  | green
  | white
  | yellow
  | indexed (n : Nat)
deriving DecidableEq

/-- The modifier flag set used by the renderer (`ratatui::style::Modifier`
bits actually used by `src/render.rs`: BOLD, DIM, ITALIC, UNDERLINED,
CROSSED_OUT). -/
structure Modifiers where
  bold : Bool
  dim : Bool
  italic : Bool
  underlined : Bool
  crossedOut : Bool
deriving DecidableEq

def Modifiers.empty : Modifiers :=
  ⟨false, false, false, false, false⟩

def Modifiers.union (a b : Modifiers) : Modifiers :=
  ⟨a.bold || b.bold, a.dim || b.dim, a.italic || b.italic,
   a.underlined || b.underlined, a.crossedOut || b.crossedOut⟩

def mBOLD : Modifiers := { Modifiers.empty with bold := true }

def mDIM : Modifiers := { Modifiers.empty with dim := true }

def mITALIC : Modifiers := { Modifiers.empty with italic := true }

def mUNDERLINED : Modifiers := { Modifiers.empty with underlined := true }

def mCROSSED : Modifiers := { Modifiers.empty with crossedOut := true }

/-- `ratatui::style::Style`: optional foreground, optional background and a
set of additive modifiers.  The `underline_color` and `sub_modifier` fields
of the real struct are never set by `src/render.rs` and are omitted. -/
structure Style where
  fg : Option Color
  bg : Option Color
  addMod : Modifiers
deriving DecidableEq

def Style.default : Style :=
  ⟨none, none, Modifiers.empty⟩

/-- `Style::fg` builder. -/
def Style.fgC (s : Style) (c : Color) : Style :=
  { s with fg := some c }

/-- `Style::bg` builder. -/
def Style.bgC (s : Style) (c : Color) : Style :=
  { s with bg := some c }

/-- `Style::add_modifier` builder: unions the flags in. -/
def Style.addModifier (s : Style) (m : Modifiers) : Style :=
  { s with addMod := s.addMod.union m }

def optOr {α : Type} (a b : Option α) : Option α :=
  match a with
  | some x => some x
  | none => b

/-- `Style::patch`: the overlay's explicitly set fields win, unset fields
inherit the base, modifier flags union. -/
def Style.patch (s o : Style) : Style :=
  ⟨optOr o.fg s.fg, optOr o.bg s.bg, s.addMod.union o.addMod⟩

/-- `ratatui::text::Span`: a run of text with one style.  Text is embedded
as `List Char`. -/
structure Span where
  content : List Char
  style : Style
deriving DecidableEq

/-- Terminal display width of one character,
`unicode_width::UnicodeWidthChar::width(ch).unwrap_or(0)`.
Modelled from the spec: control characters have width 0 (the crate returns
`None`, mapped to 0 by `unwrap_or`), "wide characters such as CJK ideographs
and emoji count as 2 columns", everything else counts 1.  The full Unicode
table of the external `unicode-width` crate is abbreviated to its
structurally relevant ranges; the proofs below only use that every width is
at most 2 and that `' '` has width 1. -/
def charWidth (c : Char) : Nat :=
  if c.val < 0x20 then 0
  else if c.val = 0x7f then 0
  else if 0x1100 ≤ c.val ∧ c.val ≤ 0x115f then 2
  else if 0x2e80 ≤ c.val ∧ c.val ≤ 0xa4cf then 2
  else if 0xac00 ≤ c.val ∧ c.val ≤ 0xd7a3 then 2
  else if 0xf900 ≤ c.val ∧ c.val ≤ 0xfaff then 2
  else if 0xff00 ≤ c.val ∧ c.val ≤ 0xff60 then 2
  else if 0x1f300 ≤ c.val ∧ c.val ≤ 0x1faff then 2
  else 1

/-- `Span::width`: display width of a span's content. -/
def Span.width (s : Span) : Nat :=
  (s.content.map charWidth).sum

/-- Display width of a line (a list of spans), as measured by the source's
`line.spans.iter().map(|s| s.width()).sum()`. -/
def lineWidth (l : List Span) : Nat :=
  (l.map Span.width).sum

theorem charWidth_le_two (c : Char) : charWidth c ≤ 2 := by
  unfold charWidth
  repeat' split
  all_goals omega

theorem charWidth_space : charWidth ' ' = 1 := by decide

/-! ## Table column-width budgeting (`budget_columns`, `src/render.rs:501`)

The Rust function keeps two parallel arrays `widths` and `locked`; the
embedding fuses them into one list of `BCol` records, where
`alloc = some w` means the column is locked at width `w` and `alloc = none`
means it is still unlocked (its `widths` entry is still the initial 0). -/

structure BCol where
  nat : Nat
  alloc : Option Nat
deriving DecidableEq

/-- First pass of `budget_columns` (lines 516-522): every column whose
natural width is at most `min_col = 5` is locked at `min(5, budget)`,
consuming that much budget, in column order. -/
def lockSmall : List Nat → Nat → List BCol × Nat
  | [], budget => ([], budget)
  | n :: rest, budget =>
    if n ≤ 5 then
      (⟨n, some (min 5 budget)⟩ :: (lockSmall rest (budget - min 5 budget)).1,
       (lockSmall rest (budget - min 5 budget)).2)
    else
      (⟨n, none⟩ :: (lockSmall rest budget).1, (lockSmall rest budget).2)

def countUnlocked (cols : List BCol) : Nat :=
  (cols.filter fun c => c.alloc.isNone).length

/-- One iteration of the locking loop (lines 533-540): every still-unlocked
column whose natural width is at most the fair share is locked at its
natural width; the budget is consumed with `saturating_sub` in column
order.  Also reports whether anything was newly locked. -/
def lockFairPass (fair : Nat) : List BCol → Nat → List BCol × Nat × Bool
  | [], budget => ([], budget, false)
  | c :: rest, budget =>
    match c.alloc with
    | some w =>
      (⟨c.nat, some w⟩ :: (lockFairPass fair rest budget).1,
       (lockFairPass fair rest budget).2.1, (lockFairPass fair rest budget).2.2)
    | none =>
      if c.nat ≤ fair then
        (⟨c.nat, some c.nat⟩ :: (lockFairPass fair rest (budget - c.nat)).1,
         (lockFairPass fair rest (budget - c.nat)).2.1, true)
      else
        (⟨c.nat, none⟩ :: (lockFairPass fair rest budget).1,
         (lockFairPass fair rest budget).2.1, (lockFairPass fair rest budget).2.2)

/-- Final even distribution (lines 542-551): locked columns keep their
width; the remaining budget is split evenly over the unlocked columns, the
integer remainder going one column at a time to the first unlocked columns. -/
def distShare (share : Nat) : List BCol → Nat → List Nat
  | [], _ => []
  | c :: rest, leftover =>
    match c.alloc with
    | some w => w :: distShare share rest leftover
    | none =>
      if 0 < leftover then (share + 1) :: distShare share rest (leftover - 1)
      else share :: distShare share rest leftover

/-- The `loop` of `budget_columns` (lines 524-552).  Each iteration either
locks at least one new column or terminates, so `numCols + 1` units of fuel
always suffice; the fuel-exhausted branch (never reached) returns the
current widths. -/
def budgetLoop : Nat → List BCol → Nat → List Nat
  | 0, cols, _ => cols.map fun c => c.alloc.getD 0
  | fuel + 1, cols, budget =>
    if countUnlocked cols = 0 then cols.map fun c => c.alloc.getD 0
    else
      if (lockFairPass (budget / countUnlocked cols) cols budget).2.2 then
        budgetLoop fuel (lockFairPass (budget / countUnlocked cols) cols budget).1
          (lockFairPass (budget / countUnlocked cols) cols budget).2.1
      else
        distShare
          ((lockFairPass (budget / countUnlocked cols) cols budget).2.1 /
            max (countUnlocked (lockFairPass (budget / countUnlocked cols) cols budget).1) 1)
          (lockFairPass (budget / countUnlocked cols) cols budget).1
          ((lockFairPass (budget / countUnlocked cols) cols budget).2.1 %
            max (countUnlocked (lockFairPass (budget / countUnlocked cols) cols budget).1) 1)

/-- `budget_columns` (lines 501-555): allocate a width to each column given
the natural widths and the terminal width. -/
def budgetColumns (natural : List Nat) (terminalWidth : Nat) : List Nat :=
  let numCols := natural.length
  let chrome := numCols * 3 + 1
  let available := terminalWidth - chrome
  if natural.sum ≤ available then natural
  else
    let p := lockSmall natural available
    budgetLoop (numCols + 1) p.1 p.2

/-- Sum of the widths of the already-locked columns. -/
def lockedSum (cols : List BCol) : Nat :=
  (cols.map fun c => c.alloc.getD 0).sum

theorem lockSmall_sum (natList : List Nat) (budget : Nat) :
    lockedSum (lockSmall natList budget).1 + (lockSmall natList budget).2 = budget := by
  induction natList generalizing budget with
  | nil => simp [lockSmall, lockedSum]
  | cons n rest ih =>
    by_cases h : n ≤ 5
    · have hmin : min 5 budget ≤ budget := Nat.min_le_right 5 budget
      have h2 := ih (budget - min 5 budget)
      simp only [lockSmall, if_pos h, lockedSum, List.map_cons, List.sum_cons, Option.getD_some]
      simp only [lockedSum] at h2
      omega
    · have h2 := ih budget
      simp only [lockSmall, if_neg h, lockedSum, List.map_cons, List.sum_cons, Option.getD_none]
      simp only [lockedSum] at h2
      omega

theorem lockFairPass_sum (fair : Nat) (cols : List BCol) (budget : Nat)
    (h : fair * countUnlocked cols ≤ budget) :
    lockedSum (lockFairPass fair cols budget).1 + (lockFairPass fair cols budget).2.1 =
      lockedSum cols + budget := by
  induction cols generalizing budget with
  | nil => simp [lockFairPass, lockedSum]
  | cons c rest ih =>
    match hc : c.alloc with
    | some w =>
      have hk : countUnlocked (c :: rest) = countUnlocked rest := by
        simp [countUnlocked, List.filter, hc]
      rw [hk] at h
      have h2 := ih budget h
      simp only [lockFairPass, hc, lockedSum, List.map_cons, List.sum_cons, Option.getD_some]
      simp only [lockedSum] at h2
      omega
    | none =>
      have hk : countUnlocked (c :: rest) = countUnlocked rest + 1 := by
        simp [countUnlocked, List.filter, hc]
      rw [hk] at h
      have hms : fair * (countUnlocked rest + 1) = fair * countUnlocked rest + fair := by
        ring
      by_cases hle : c.nat ≤ fair
      · have hle2 : c.nat ≤ budget := by omega
        have hrest : fair * countUnlocked rest ≤ budget - c.nat := by omega
        have h2 := ih (budget - c.nat) hrest
        simp only [lockFairPass, hc, if_pos hle, lockedSum, List.map_cons, List.sum_cons,
          Option.getD_some, Option.getD_none]
        simp only [lockedSum] at h2
        omega
      · have hrest : fair * countUnlocked rest ≤ budget := by omega
        have h2 := ih budget hrest
        simp only [lockFairPass, hc, if_neg hle, lockedSum, List.map_cons, List.sum_cons,
          Option.getD_some, Option.getD_none]
        simp only [lockedSum] at h2
        omega

theorem distShare_sum (share : Nat) (cols : List BCol) (leftover : Nat)
    (h : leftover ≤ countUnlocked cols) :
    (distShare share cols leftover).sum =
      lockedSum cols + share * countUnlocked cols + leftover := by
  induction cols generalizing leftover with
  | nil =>
    simp [countUnlocked] at h
    simp [distShare, lockedSum, countUnlocked, h]
  | cons c rest ih =>
    match hc : c.alloc with
    | some w =>
      have hk : countUnlocked (c :: rest) = countUnlocked rest := by
        simp [countUnlocked, List.filter, hc]
      rw [hk] at h
      have h2 := ih leftover h
      simp only [distShare, hc, hk, lockedSum, List.map_cons, List.sum_cons, Option.getD_some]
      simp only [lockedSum] at h2
      omega
    | none =>
      have hk : countUnlocked (c :: rest) = countUnlocked rest + 1 := by
        simp [countUnlocked, List.filter, hc]
      rw [hk] at h
      have hms : share * (countUnlocked rest + 1) = share * countUnlocked rest + share := by
        ring
      by_cases hl : 0 < leftover
      · have h2 := ih (leftover - 1) (by omega)
        simp only [distShare, hc, if_pos hl, hk, lockedSum, List.map_cons, List.sum_cons,
          Option.getD_none]
        simp only [lockedSum] at h2
        omega
      · have h2 := ih leftover (by omega)
        simp only [distShare, hc, if_neg hl, hk, lockedSum, List.map_cons, List.sum_cons,
          Option.getD_none]
        simp only [lockedSum] at h2
        omega

theorem budgetLoop_sum (fuel : Nat) (cols : List BCol) (budget : Nat) :
    (budgetLoop fuel cols budget).sum ≤ lockedSum cols + budget := by
  induction fuel generalizing cols budget with
  | zero => simp [budgetLoop, lockedSum]
  | succ fuel ih =>
    by_cases hk : countUnlocked cols = 0
    · simp [budgetLoop, hk, lockedSum]
    · have hfair : budget / countUnlocked cols * countUnlocked cols ≤ budget :=
        Nat.div_mul_le_self budget (countUnlocked cols)
      have hsum := lockFairPass_sum (budget / countUnlocked cols) cols budget hfair
      by_cases hnl : (lockFairPass (budget / countUnlocked cols) cols budget).2.2
      · have h2 := ih (lockFairPass (budget / countUnlocked cols) cols budget).1
          (lockFairPass (budget / countUnlocked cols) cols budget).2.1
        simp only [budgetLoop, if_neg hk, if_pos hnl]
        omega
      · simp only [budgetLoop, if_neg hk, if_neg hnl]
        set P := lockFairPass (budget / countUnlocked cols) cols budget with hP
        by_cases hz : countUnlocked P.1 = 0
        · have hmax : max (countUnlocked P.1) 1 = 1 := by omega
          rw [hmax]
          have hds := distShare_sum (P.2.1 / 1) P.1 (P.2.1 % 1) (by omega)
          rw [hds, hz]
          omega
        · have hmax : max (countUnlocked P.1) 1 = countUnlocked P.1 := by omega
          rw [hmax]
          have hds := distShare_sum (P.2.1 / countUnlocked P.1) P.1
            (P.2.1 % countUnlocked P.1)
            (le_of_lt (Nat.mod_lt _ (by omega)))
          rw [hds]
          have hdm := Nat.div_add_mod' P.2.1 (countUnlocked P.1)
          omega

/-- Core allocation bound: the allocated widths never exceed the available
budget `terminal_width - chrome` (saturating). -/
theorem budgetColumns_le_available (natural : List Nat) (tw : Nat) :
    (budgetColumns natural tw).sum ≤ tw - (natural.length * 3 + 1) := by
  unfold budgetColumns
  by_cases h : natural.sum ≤ tw - (natural.length * 3 + 1)
  · simp [h]
  · have hls := lockSmall_sum natural (tw - (natural.length * 3 + 1))
    have hbl := budgetLoop_sum (natural.length + 1)
      (lockSmall natural (tw - (natural.length * 3 + 1))).1
      (lockSmall natural (tw - (natural.length * 3 + 1))).2
    simp only [if_neg h]
    omega

/-- C1 (amended): for every non-empty list of natural column widths and
every terminal width that is at least the chrome `3 * N + 1`, the
allocation returned by `budget_columns` satisfies
`sum(allocated) + chrome ≤ terminal_width`.  (The claim's original form,
without the chrome bound on the terminal width, is refuted by
`budgetColumns_fits_cex` below: when `terminal_width < chrome` the
available budget saturates at 0 and the fixed chrome alone already exceeds
the terminal width.) -/
theorem budgetColumns_fits (natural : List Nat) (tw : Nat) (_hne : natural ≠ [])
    (hchrome : 3 * natural.length + 1 ≤ tw) :
    (budgetColumns natural tw).sum + (3 * natural.length + 1) ≤ tw := by
  have h := budgetColumns_le_available natural tw
  omega

/-- C1, counterexample to the claim as stated: the single-column table with
natural width 3 at terminal width 3 (which is smaller than the chrome
`3 * 1 + 1 = 4`) allocates `[0]`, and `0 + 4 ≤ 3` is false. -/
theorem budgetColumns_fits_cex :
    ([3] : List Nat) ≠ [] ∧
      ¬ ((budgetColumns [3] 3).sum + (3 * ([3] : List Nat).length + 1) ≤ 3) := by
  constructor
  · decide
  · decide

/-- C1 witness: the amended theorem applied at the concrete narrow-terminal
input of the source's own `test_budget_narrow_terminal`. -/
theorem budgetColumns_fits_witness :
    ([20, 30, 25] : List Nat) ≠ [] ∧ 3 * ([20, 30, 25] : List Nat).length + 1 ≤ 40 ∧
      (budgetColumns [20, 30, 25] 40).sum + (3 * ([20, 30, 25] : List Nat).length + 1) ≤ 40 :=
  ⟨by decide, by decide, budgetColumns_fits [20, 30, 25] 40 (by decide) (by decide)⟩

/-- C4: whenever the natural widths already fit
(`sum(natural) + chrome ≤ terminal_width`), `budget_columns` returns the
natural widths unchanged. -/
theorem budgetColumns_no_compress (natural : List Nat) (tw : Nat)
    (h : natural.sum + (3 * natural.length + 1) ≤ tw) :
    budgetColumns natural tw = natural := by
  unfold budgetColumns
  have h2 : natural.sum ≤ tw - (natural.length * 3 + 1) := by omega
  simp [h2]

/-- C4 witness: the theorem applied at the concrete input of the source's
`test_budget_natural_fits`. -/
theorem budgetColumns_no_compress_witness :
    ([10, 15, 8] : List Nat).sum + (3 * ([10, 15, 8] : List Nat).length + 1) ≤ 80 ∧
      budgetColumns [10, 15, 8] 80 = [10, 15, 8] :=
  ⟨by decide, budgetColumns_no_compress [10, 15, 8] 80 (by decide)⟩

/-! ## Style-preserving word-wrap (`wrap_cell_spans`, `src/render.rs:575`)

The per-character stream carries `(character, display width, effective
style)` triples exactly as the Rust `Vec<(char, usize, Style)>` does.  The
line under construction is a list of `(character, style)` pairs plus its
tracked width, as in the source. -/

/-- `StyledWord` (lines 569-573). -/
structure StyledWord where
  chars : List (Char × Nat × Style)
  width : Nat
  trailingSpace : Bool
deriving DecidableEq

/-- `flatten_to_styled_chars` (lines 661-671). -/
def flattenToStyledChars (spans : List Span) (baseStyle : Style) :
    List (Char × Nat × Style) :=
  (spans.map fun span =>
    span.content.map fun ch => (ch, charWidth ch, baseStyle.patch span.style)).flatten

/-- The accumulator loop of `split_into_words` (lines 673-703): spaces end
the current word (marking it as having a trailing space); other characters
extend it. -/
def splitGo : List (Char × Nat × Style) → List (Char × Nat × Style) → Nat →
    List StyledWord
  | [], current, width =>
    if current.isEmpty then [] else [⟨current, width, false⟩]
  | (ch, cw, st) :: rest, current, width =>
    if ch = ' ' then
      if current.isEmpty then splitGo rest current width
      else ⟨current, width, true⟩ :: splitGo rest [] 0
    else
      splitGo rest (current ++ [(ch, cw, st)]) (width + cw)

/-- `split_into_words` (lines 673-703). -/
def splitIntoWords (chars : List (Char × Nat × Style)) : List StyledWord :=
  splitGo chars [] 0

/-- The accumulator loop of `coalesce_chars` (lines 705-723): adjacent
characters with the same style fuse into one span. -/
def coalesceGo : List (Char × Style) → List Span → List Char → Style → List Span
  | [], spans, buf, curStyle =>
    if buf.isEmpty then spans else spans ++ [⟨buf, curStyle⟩]
  | (ch, style) :: rest, spans, buf, curStyle =>
    if ¬ buf.isEmpty ∧ style ≠ curStyle then
      coalesceGo rest (spans ++ [⟨buf, curStyle⟩]) [ch] style
    else
      coalesceGo rest spans (buf ++ [ch]) style

/-- `coalesce_chars` (lines 705-723). -/
def coalesceChars (chars : List (Char × Style)) : List Span :=
  coalesceGo chars [] [] Style.default

/-- The per-character inner loop of `truncate_line_spans` (lines 738-747):
keep characters while they still fit the remaining budget. -/
def truncChars (budget : Nat) : List Char → Nat → List Char
  | [], _ => []
  | ch :: rest, used =>
    if budget < used + charWidth ch then []
    else ch :: truncChars budget rest (used + charWidth ch)

/-- `truncate_line_spans` (lines 725-754): keep whole spans while they fit,
then at most one partial span. -/
def truncateLineSpans : List Span → Nat → List Span
  | [], _ => []
  | span :: rest, remaining =>
    if remaining = 0 then []
    else if span.width ≤ remaining then
      span :: truncateLineSpans rest (remaining - span.width)
    else
      [⟨truncChars remaining span.content 0, span.style⟩]

/-- The ellipsis span `Span::styled("…", Style::default().fg(DarkGray))`
appended by `finish_truncated`. -/
def ellipsisSpan : Span :=
  ⟨['…'], Style.default.fgC Color.darkGray⟩

/-- `finish_truncated` (lines 649-659). -/
def finishTruncated (lines : List (List Span)) (cur : List (Char × Style))
    (maxWidth : Nat) : List (List Span) :=
  lines ++ [truncateLineSpans (coalesceChars cur) (maxWidth - 1) ++ [ellipsisSpan]]

/-- The style given to a retained trailing space:
`word.chars.last().map(|c| c.2).unwrap_or_default()` (lines 621, 633). -/
def trailingStyle (word : StyledWord) : Style :=
  (word.chars.getLast?.map fun t => t.2.2).getD Style.default

/-- The hard-split inner loop of `wrap_cell_spans` (lines 608-619), for a
single word wider than the max width: characters are packed one by one,
flushing the line when the next character would overflow.  `Except.error`
is the early `return finish_truncated(..)` (line 611); `Except.ok` is
normal fall-through with the updated `(lines, cur_chars, cur_width)`. -/
def hardSplitChars (maxWidth maxLines : Nat) :
    List (Char × Nat × Style) → List (List Span) → List (Char × Style) → Nat →
    Except (List (List Span)) (List (List Span) × List (Char × Style) × Nat)
  | [], lines, cur, w => .ok (lines, cur, w)
  | (ch, cw, _st) :: rest, lines, cur, w =>
    if maxWidth < w + cw then
      if maxLines ≤ lines.length + 1 then
        .error (finishTruncated lines cur maxWidth)
      else
        hardSplitChars maxWidth maxLines rest (lines ++ [coalesceChars cur])
          [(ch, _st)] cw
    else
      hardSplitChars maxWidth maxLines rest lines (cur ++ [(ch, _st)]) (w + cw)

/-- The word loop of `wrap_cell_spans` (lines 597-646), including the final
flush of the line in progress and the empty-output guard. -/
def wrapWordsLoop (maxWidth maxLines : Nat) :
    List StyledWord → List (List Span) → List (Char × Style) → Nat →
    List (List Span)
  | [], lines, cur, _w =>
    let lines2 := if cur.isEmpty then lines else lines ++ [coalesceChars cur]
    if lines2.isEmpty then [[]] else lines2
  | word :: rest, lines, cur, w =>
    match
      (if 0 < w ∧ maxWidth < w + word.width then
        if maxLines ≤ lines.length + 1 then none
        else some (lines ++ [coalesceChars cur], ([] : List (Char × Style)), 0)
      else some (lines, cur, w)) with
    | none => finishTruncated lines cur maxWidth
    | some (lines1, cur1, w1) =>
      if maxWidth < word.width then
        match hardSplitChars maxWidth maxLines word.chars lines1 cur1 w1 with
        | .error r => r
        | .ok (lines2, cur2, w2) =>
          if word.trailingSpace ∧ w2 < maxWidth then
            wrapWordsLoop maxWidth maxLines rest lines2
              (cur2 ++ [(' ', trailingStyle word)]) (w2 + 1)
          else
            wrapWordsLoop maxWidth maxLines rest lines2 cur2 w2
      else
        if word.trailingSpace ∧ w1 + word.width < maxWidth then
          wrapWordsLoop maxWidth maxLines rest lines1
            (cur1 ++ word.chars.map (fun t => (t.1, t.2.2)) ++ [(' ', trailingStyle word)])
            (w1 + word.width + 1)
        else
          wrapWordsLoop maxWidth maxLines rest lines1
            (cur1 ++ word.chars.map fun t => (t.1, t.2.2)) (w1 + word.width)

/-- `wrap_cell_spans` (lines 575-647): wrap one cell's spans to lines of at
most `max_width` display columns, truncating with an ellipsis when more
than `max_lines` lines would be needed.  If the content already fits on
one line it is returned re-merged under the base style, unchanged. -/
def wrapCellSpans (spans : List Span) (maxWidth maxLines : Nat)
    (baseStyle : Style) : List (List Span) :=
  let flat := flattenToStyledChars spans baseStyle
  if (flat.map fun t => t.2.1).sum ≤ maxWidth then
    [spans.map fun s => ⟨s.content, baseStyle.patch s.style⟩]
  else
    wrapWordsLoop maxWidth maxLines (splitIntoWords flat) [] [] 0

/-- The hard-split inner loop with the `max_lines` early return removed:
packs every character.  Used, through `packCellSpans`, to express the
spec's "content would require more than max_lines lines to pack". -/
def packSplitChars (maxWidth : Nat) :
    List (Char × Nat × Style) → List (List Span) → List (Char × Style) → Nat →
    List (List Span) × List (Char × Style) × Nat
  | [], lines, cur, w => (lines, cur, w)
  | (ch, cw, _st) :: rest, lines, cur, w =>
    if maxWidth < w + cw then
      packSplitChars maxWidth rest (lines ++ [coalesceChars cur]) [(ch, _st)] cw
    else
      packSplitChars maxWidth rest lines (cur ++ [(ch, _st)]) (w + cw)

/-- The word loop with the `max_lines` early returns removed: the greedy
packing itself, never truncated. -/
def packWordsLoop (maxWidth : Nat) :
    List StyledWord → List (List Span) → List (Char × Style) → Nat →
    List (List Span)
  | [], lines, cur, _w =>
    let lines2 := if cur.isEmpty then lines else lines ++ [coalesceChars cur]
    if lines2.isEmpty then [[]] else lines2
  | word :: rest, lines, cur, w =>
    match
      (if 0 < w ∧ maxWidth < w + word.width then
        (lines ++ [coalesceChars cur], ([] : List (Char × Style)), 0)
      else (lines, cur, w)) with
    | (lines1, cur1, w1) =>
      if maxWidth < word.width then
        match packSplitChars maxWidth word.chars lines1 cur1 w1 with
        | (lines2, cur2, w2) =>
          if word.trailingSpace ∧ w2 < maxWidth then
            packWordsLoop maxWidth rest lines2
              (cur2 ++ [(' ', trailingStyle word)]) (w2 + 1)
          else
            packWordsLoop maxWidth rest lines2 cur2 w2
      else
        if word.trailingSpace ∧ w1 + word.width < maxWidth then
          packWordsLoop maxWidth rest lines1
            (cur1 ++ word.chars.map (fun t => (t.1, t.2.2)) ++ [(' ', trailingStyle word)])
            (w1 + word.width + 1)
        else
          packWordsLoop maxWidth rest lines1
            (cur1 ++ word.chars.map fun t => (t.1, t.2.2)) (w1 + word.width)

/-- Modelled from the spec: the lines the wrap engine "would require … to
pack" the content — `wrap_cell_spans` with the `max_lines` truncation
checks removed, so that packing always runs to completion.  Its length is
the number of lines the content needs; `wrap_cell_spans` itself never
exposes this because it truncates. -/
def packCellSpans (spans : List Span) (maxWidth : Nat) (baseStyle : Style) :
    List (List Span) :=
  let flat := flattenToStyledChars spans baseStyle
  if (flat.map fun t => t.2.1).sum ≤ maxWidth then
    [spans.map fun s => ⟨s.content, baseStyle.patch s.style⟩]
  else
    packWordsLoop maxWidth (splitIntoWords flat) [] [] 0

/-- C8: for every max width, max-lines limit and base style, wrapping an
empty span sequence yields exactly one output line containing zero spans
(the total width 0 always fits, so the single-line fast path returns the
empty list of spans as one line). -/
theorem wrapCellSpans_empty (maxWidth maxLines : Nat) (baseStyle : Style) :
    wrapCellSpans [] maxWidth maxLines baseStyle = [[]] := by
  simp [wrapCellSpans, flattenToStyledChars]

/-! ### Width bound for the wrap engine (C2) -/

/-- Display width of the line under construction (`cur_chars`). -/
def curWidth (cur : List (Char × Style)) : Nat :=
  (cur.map fun p => charWidth p.1).sum

theorem lineWidth_append (a b : List Span) :
    lineWidth (a ++ b) = lineWidth a + lineWidth b := by
  simp [lineWidth]

theorem coalesceGo_width (chars : List (Char × Style)) (spans : List Span)
    (buf : List Char) (st : Style) :
    lineWidth (coalesceGo chars spans buf st) =
      lineWidth spans + (buf.map charWidth).sum + curWidth chars := by
  induction chars generalizing spans buf st with
  | nil =>
    by_cases h : buf.isEmpty
    · have : buf = [] := by simpa using h
      simp [coalesceGo, h, this, curWidth]
    · simp [coalesceGo, h, curWidth, lineWidth_append, lineWidth, Span.width]
  | cons p rest ih =>
    by_cases h : ¬ p.2 = st ∧ ¬ buf.isEmpty
    · have hcond : ¬ buf.isEmpty ∧ p.2 ≠ st := ⟨h.2, h.1⟩
      simp only [coalesceGo, if_pos hcond, ih]
      simp [curWidth, lineWidth_append, lineWidth, Span.width]
      ring
    · have hcond : ¬ (¬ buf.isEmpty ∧ p.2 ≠ st) := by tauto
      simp only [coalesceGo, if_neg hcond, ih]
      simp [curWidth]
      ring

theorem truncChars_width (budget : Nat) (content : List Char) (used : Nat)
    (h : used ≤ budget) :
    ((truncChars budget content used).map charWidth).sum ≤ budget - used := by
  induction content generalizing used with
  | nil => simp [truncChars]
  | cons ch rest ih =>
    by_cases hc : budget < used + charWidth ch
    · simp [truncChars, hc]
    · have h2 := ih (used + charWidth ch) (by omega)
      simp only [truncChars, if_neg hc, List.map_cons, List.sum_cons]
      omega

theorem truncateLineSpans_width (spans : List Span) (remaining : Nat) :
    lineWidth (truncateLineSpans spans remaining) ≤ remaining := by
  induction spans generalizing remaining with
  | nil => simp [truncateLineSpans, lineWidth]
  | cons span rest ih =>
    by_cases h0 : remaining = 0
    · simp [truncateLineSpans, h0, lineWidth]
    · by_cases hw : span.width ≤ remaining
      · have h2 := ih (remaining - span.width)
        simp only [truncateLineSpans, if_neg h0, if_pos hw, lineWidth, List.map_cons,
          List.sum_cons]
        simp only [lineWidth] at h2
        omega
      · have h3 := truncChars_width remaining span.content 0 (by omega)
        simp only [truncateLineSpans, if_neg h0, if_neg hw]
        simp only [lineWidth, List.map_cons, List.map_nil, List.sum_cons, List.sum_nil,
          Span.width]
        omega

/-- Well-formedness of a flattened character stream: the recorded width of
every triple is the character's display width (true of everything
`flatten_to_styled_chars` produces). -/
def wfChars (l : List (Char × Nat × Style)) : Prop :=
  ∀ t ∈ l, t.2.1 = charWidth t.1

/-- Well-formedness of a `StyledWord`: its characters are well-formed and
its recorded width is the sum of their display widths. -/
def wfWord (word : StyledWord) : Prop :=
  wfChars word.chars ∧ word.width = (word.chars.map fun t => charWidth t.1).sum

theorem flattenToStyledChars_wf (spans : List Span) (baseStyle : Style) :
    wfChars (flattenToStyledChars spans baseStyle) := by
  intro t ht
  simp only [flattenToStyledChars, List.mem_flatten, List.mem_map] at ht
  obtain ⟨l, ⟨span, _, rfl⟩, htl⟩ := ht
  simp only [List.mem_map] at htl
  obtain ⟨ch, _, rfl⟩ := htl
  rfl

theorem splitGo_wf (rest current : List (Char × Nat × Style)) (width : Nat)
    (hrest : wfChars rest) (hcur : wfChars current)
    (hw : width = (current.map fun t => charWidth t.1).sum) :
    ∀ word ∈ splitGo rest current width, wfWord word := by
  induction rest generalizing current width with
  | nil =>
    intro word hword
    by_cases h : current.isEmpty
    · simp [splitGo, h] at hword
    · simp only [splitGo, if_neg h, List.mem_singleton] at hword
      subst hword
      exact ⟨hcur, hw⟩
  | cons t ts ih =>
    have hts : wfChars ts := fun u hu => hrest u (List.mem_cons_of_mem t hu)
    have ht : t.2.1 = charWidth t.1 := hrest t (List.mem_cons_self t ts)
    intro word hword
    by_cases hsp : t.1 = ' '
    · by_cases hemp : current.isEmpty
      · have : splitGo (t :: ts) current width = splitGo ts current width := by
          cases t with
          | mk c rest2 =>
            cases rest2 with
            | mk cw st => simp_all [splitGo]
        rw [this] at hword
        exact ih current width hts hcur hw word hword
      · have : splitGo (t :: ts) current width =
            ⟨current, width, true⟩ :: splitGo ts [] 0 := by
          cases t with
          | mk c rest2 =>
            cases rest2 with
            | mk cw st => simp_all [splitGo]
        rw [this] at hword
        rcases List.mem_cons.mp hword with h | h
        · subst h
          exact ⟨hcur, hw⟩
        · exact ih [] 0 hts (by intro u hu; simp at hu) (by simp) word h
    · have : splitGo (t :: ts) current width =
          splitGo ts (current ++ [t]) (width + t.2.1) := by
        cases t with
        | mk c rest2 =>
          cases rest2 with
          | mk cw st => simp_all [splitGo]
      rw [this] at hword
      refine ih (current ++ [t]) (width + t.2.1) hts ?_ ?_ word hword
      · intro u hu
        rcases List.mem_append.mp hu with h | h
        · exact hcur u h
        · simp only [List.mem_singleton] at h
          subst h
          exact ht
      · simp [hw, ht]

theorem coalesceChars_width (chars : List (Char × Style)) :
    lineWidth (coalesceChars chars) = curWidth chars := by
  have h := coalesceGo_width chars [] [] Style.default
  simpa [coalesceChars, lineWidth] using h

theorem curWidth_append (a b : List (Char × Style)) :
    curWidth (a ++ b) = curWidth a + curWidth b := by
  simp [curWidth]

theorem curWidth_word (chars : List (Char × Nat × Style)) :
    curWidth (chars.map fun t => (t.1, t.2.2)) =
      (chars.map fun t => charWidth t.1).sum := by
  induction chars with
  | nil => simp [curWidth]
  | cons t rest ih =>
    simp only [curWidth, List.map_cons, List.sum_cons] at ih ⊢
    omega

theorem finishTruncated_width (lines : List (List Span)) (cur : List (Char × Style))
    (maxWidth : Nat) (h1 : 1 ≤ maxWidth)
    (hl : ∀ l ∈ lines, lineWidth l ≤ maxWidth) :
    ∀ l ∈ finishTruncated lines cur maxWidth, lineWidth l ≤ maxWidth := by
  intro l hlmem
  simp only [finishTruncated, List.mem_append, List.mem_singleton] at hlmem
  rcases hlmem with h | h
  · exact hl l h
  · subst h
    have h3 := truncateLineSpans_width (coalesceChars cur) (maxWidth - 1)
    have hell : lineWidth [ellipsisSpan] = 1 := by decide
    rw [lineWidth_append]
    omega

theorem hardSplitChars_width (maxWidth maxLines : Nat) (hmw : 2 ≤ maxWidth)
    (chars : List (Char × Nat × Style)) :
    ∀ lines cur w, wfChars chars →
    (∀ l ∈ lines, lineWidth l ≤ maxWidth) → w = curWidth cur → w ≤ maxWidth →
    (∀ E, hardSplitChars maxWidth maxLines chars lines cur w = .error E →
        ∀ l ∈ E, lineWidth l ≤ maxWidth) ∧
    (∀ lines2 cur2 w2,
        hardSplitChars maxWidth maxLines chars lines cur w = .ok (lines2, cur2, w2) →
        (∀ l ∈ lines2, lineWidth l ≤ maxWidth) ∧ w2 = curWidth cur2 ∧ w2 ≤ maxWidth) := by
  induction chars with
  | nil =>
    intro lines cur w _hwf hl hww hwm
    constructor
    · intro E hE
      simp [hardSplitChars] at hE
    · intro lines2 cur2 w2 hok
      simp only [hardSplitChars, Except.ok.injEq, Prod.mk.injEq] at hok
      obtain ⟨h1, h2, h3⟩ := hok
      subst h1; subst h2; subst h3
      exact ⟨hl, hww, hwm⟩
  | cons t rest ih =>
    obtain ⟨ch, cw, st⟩ := t
    intro lines cur w hwf hl hww hwm
    have hcw : cw = charWidth ch := hwf (ch, cw, st) (List.mem_cons_self _ _)
    have hwfr : wfChars rest := fun u hu => hwf u (List.mem_cons_of_mem _ hu)
    by_cases hov : maxWidth < w + cw
    · by_cases htr : maxLines ≤ lines.length + 1
      · constructor
        · intro E hE
          simp only [hardSplitChars, if_pos hov, if_pos htr, Except.error.injEq] at hE
          subst hE
          exact finishTruncated_width lines cur maxWidth (by omega) hl
        · intro lines2 cur2 w2 hok
          simp only [hardSplitChars, if_pos hov, if_pos htr] at hok
          exact Except.noConfusion hok
      · have hl2 : ∀ l ∈ lines ++ [coalesceChars cur], lineWidth l ≤ maxWidth := by
          intro l hlm
          rcases List.mem_append.mp hlm with h | h
          · exact hl l h
          · simp only [List.mem_singleton] at h
            subst h
            rw [coalesceChars_width]
            omega
        have hcw2 : cw = curWidth [(ch, st)] := by
          simp [curWidth, hcw]
        have hcwle : cw ≤ maxWidth := by
          have := charWidth_le_two ch
          omega
        have hrec := ih (lines ++ [coalesceChars cur]) [(ch, st)] cw hwfr hl2 hcw2 hcwle
        constructor
        · intro E hE
          simp only [hardSplitChars, if_pos hov, if_neg htr] at hE
          exact hrec.1 E hE
        · intro lines2 cur2 w2 hok
          simp only [hardSplitChars, if_pos hov, if_neg htr] at hok
          exact hrec.2 lines2 cur2 w2 hok
    · have hww2 : w + cw = curWidth (cur ++ [(ch, st)]) := by
        rw [curWidth_append, ← hww]
        simp [curWidth, hcw]
      have hrec := ih lines (cur ++ [(ch, st)]) (w + cw) hwfr hl hww2 (by omega)
      constructor
      · intro E hE
        simp only [hardSplitChars, if_neg hov] at hE
        exact hrec.1 E hE
      · intro lines2 cur2 w2 hok
        simp only [hardSplitChars, if_neg hov] at hok
        exact hrec.2 lines2 cur2 w2 hok

theorem wrapWordsLoop_width (maxWidth maxLines : Nat) (hmw : 2 ≤ maxWidth)
    (words : List StyledWord) :
    ∀ lines cur w, (∀ word ∈ words, wfWord word) →
    (∀ l ∈ lines, lineWidth l ≤ maxWidth) → w = curWidth cur → w ≤ maxWidth →
    ∀ l ∈ wrapWordsLoop maxWidth maxLines words lines cur w, lineWidth l ≤ maxWidth := by
  induction words with
  | nil =>
    intro lines cur w _hw hl hww hwm l hlm
    by_cases hc : cur.isEmpty
    · simp only [wrapWordsLoop, if_pos hc] at hlm
      by_cases he : lines.isEmpty
      · simp only [if_pos he, List.mem_singleton] at hlm
        subst hlm
        simp [lineWidth]
      · simp only [if_neg he] at hlm
        exact hl l hlm
    · simp only [wrapWordsLoop, if_neg hc] at hlm
      have hne : (lines ++ [coalesceChars cur]).isEmpty = false := by
        simp
      simp only [hne, Bool.false_eq_true, if_false, List.mem_append,
        List.mem_singleton] at hlm
      rcases hlm with h | h
      · exact hl l h
      · subst h
        rw [coalesceChars_width]
        omega
  | cons word rest ih =>
    intro lines cur w hw hl hww hwm l hlm
    have hwword : wfWord word := hw word (List.mem_cons_self _ _)
    have hwrest : ∀ u ∈ rest, wfWord u := fun u hu => hw u (List.mem_cons_of_mem _ hu)
    -- the state after the only-line-break step (step 1 of the loop body)
    by_cases hbrk : 0 < w ∧ maxWidth < w + word.width
    · by_cases htr : maxLines ≤ lines.length + 1
      · simp only [wrapWordsLoop, if_pos hbrk, if_pos htr] at hlm
        exact finishTruncated_width lines cur maxWidth (by omega) hl l hlm
      · simp only [wrapWordsLoop, if_pos hbrk, if_neg htr] at hlm
        have hl1 : ∀ u ∈ lines ++ [coalesceChars cur], lineWidth u ≤ maxWidth := by
          intro u hu
          rcases List.mem_append.mp hu with h | h
          · exact hl u h
          · simp only [List.mem_singleton] at h
            subst h
            rw [coalesceChars_width]
            omega
        by_cases hhard : maxWidth < word.width
        · have hh := hardSplitChars_width maxWidth maxLines hmw word.chars
            (lines ++ [coalesceChars cur]) [] 0 hwword.1 hl1 (by simp [curWidth]) (by omega)
          rcases hres : hardSplitChars maxWidth maxLines word.chars
              (lines ++ [coalesceChars cur]) [] 0 with E | st3
          · simp only [if_pos hhard, hres] at hlm
            exact hh.1 E hres l hlm
          · obtain ⟨lines2, cur2, w2⟩ := st3
            simp only [if_pos hhard, hres] at hlm
            have hok := hh.2 lines2 cur2 w2 hres
            by_cases hts : word.trailingSpace ∧ w2 < maxWidth
            · rw [if_pos hts] at hlm
              refine ih lines2 (cur2 ++ [(' ', trailingStyle word)]) (w2 + 1) hwrest
                hok.1 ?_ (by omega) l hlm
              rw [curWidth_append, ← hok.2.1]
              simp [curWidth, charWidth_space]
            · rw [if_neg hts] at hlm
              exact ih lines2 cur2 w2 hwrest hok.1 hok.2.1 hok.2.2 l hlm
        · rw [if_neg hhard] at hlm
          by_cases hts : word.trailingSpace ∧ 0 + word.width < maxWidth
          · rw [if_pos hts] at hlm
            refine ih (lines ++ [coalesceChars cur])
              (([] : List (Char × Style)) ++ word.chars.map (fun t => (t.1, t.2.2)) ++
                [(' ', trailingStyle word)])
              (0 + word.width + 1) hwrest hl1 ?_ (by omega) l hlm
            rw [curWidth_append, curWidth_append, curWidth_word, ← hwword.2]
            simp [curWidth, charWidth_space]
          · rw [if_neg hts] at hlm
            refine ih (lines ++ [coalesceChars cur])
              (([] : List (Char × Style)) ++ word.chars.map fun t => (t.1, t.2.2))
              (0 + word.width) hwrest hl1 ?_ (by omega) l hlm
            rw [curWidth_append, curWidth_word, ← hwword.2]
            simp [curWidth]
    · simp only [wrapWordsLoop, if_neg hbrk] at hlm
      by_cases hhard : maxWidth < word.width
      · have hh := hardSplitChars_width maxWidth maxLines hmw word.chars
          lines cur w hwword.1 hl hww hwm
        rcases hres : hardSplitChars maxWidth maxLines word.chars lines cur w with E | st3
        · simp only [if_pos hhard, hres] at hlm
          exact hh.1 E hres l hlm
        · obtain ⟨lines2, cur2, w2⟩ := st3
          simp only [if_pos hhard, hres] at hlm
          have hok := hh.2 lines2 cur2 w2 hres
          by_cases hts : word.trailingSpace ∧ w2 < maxWidth
          · rw [if_pos hts] at hlm
            refine ih lines2 (cur2 ++ [(' ', trailingStyle word)]) (w2 + 1) hwrest
              hok.1 ?_ (by omega) l hlm
            rw [curWidth_append, ← hok.2.1]
            simp [curWidth, charWidth_space]
          · rw [if_neg hts] at hlm
            exact ih lines2 cur2 w2 hwrest hok.1 hok.2.1 hok.2.2 l hlm
      · rw [if_neg hhard] at hlm
        have hfit : w + word.width ≤ maxWidth := by
          rcases Decidable.em (0 < w) with h0 | h0
          · have : ¬ maxWidth < w + word.width := fun hc => hbrk ⟨h0, hc⟩
            omega
          · omega
        by_cases hts : word.trailingSpace ∧ w + word.width < maxWidth
        · rw [if_pos hts] at hlm
          refine ih lines (cur ++ word.chars.map (fun t => (t.1, t.2.2)) ++
              [(' ', trailingStyle word)]) (w + word.width + 1) hwrest hl ?_ (by omega) l hlm
          rw [curWidth_append, curWidth_append, curWidth_word, ← hwword.2, ← hww]
          simp [curWidth, charWidth_space]
        · rw [if_neg hts] at hlm
          refine ih lines (cur ++ word.chars.map fun t => (t.1, t.2.2)) (w + word.width)
            hwrest hl ?_ (by omega) l hlm
          rw [curWidth_append, curWidth_word, ← hwword.2, ← hww]

theorem flattenSpanWidth (content : List Char) (st : Style) :
    ((content.map fun ch => (ch, charWidth ch, st)).map fun t => t.2.1).sum =
      (content.map charWidth).sum := by
  induction content with
  | nil => simp
  | cons c rest ih =>
    simp only [List.map_cons, List.sum_cons, ih]

theorem flatten_total_width (spans : List Span) (base : Style) :
    ((flattenToStyledChars spans base).map fun t => t.2.1).sum =
      lineWidth (spans.map fun s => ⟨s.content, base.patch s.style⟩) := by
  induction spans with
  | nil => simp [flattenToStyledChars, lineWidth]
  | cons s rest ih =>
    simp only [flattenToStyledChars] at ih ⊢
    simp only [List.map_cons, List.flatten_cons, List.map_append, List.sum_append,
      lineWidth, List.sum_cons, Span.width] at ih ⊢
    rw [flattenSpanWidth]
    omega

/-- C2 (amended): for every wrap call whose max width is at least 2 (the
width of the widest possible character), every output line of
`wrap_cell_spans` has display width at most the max width.  (The claim's
original form, for *every* max width, is refuted by
`wrapCellSpans_width_cex` below: with max width 0 the hard-split path must
still emit each character somewhere, producing lines wider than 0.) -/
theorem wrapCellSpans_width (spans : List Span) (maxWidth maxLines : Nat)
    (baseStyle : Style) (hmw : 2 ≤ maxWidth) :
    ∀ l ∈ wrapCellSpans spans maxWidth maxLines baseStyle, lineWidth l ≤ maxWidth := by
  intro l hlm
  simp only [wrapCellSpans] at hlm
  by_cases hfit :
      ((flattenToStyledChars spans baseStyle).map fun t => t.2.1).sum ≤ maxWidth
  · rw [if_pos hfit] at hlm
    simp only [List.mem_singleton] at hlm
    subst hlm
    rw [← flatten_total_width]
    exact hfit
  · rw [if_neg hfit] at hlm
    refine wrapWordsLoop_width maxWidth maxLines hmw
      (splitIntoWords (flattenToStyledChars spans baseStyle)) [] [] 0 ?_ ?_ ?_ ?_ l hlm
    · exact splitGo_wf (flattenToStyledChars spans baseStyle) [] 0
        (flattenToStyledChars_wf spans baseStyle) (by intro t ht; simp at ht) (by simp)
    · intro u hu
      simp at hu
    · simp [curWidth]
    · omega

/-- C2, counterexample to the claim as stated: wrapping the two-character
span `"aa"` at max width 0 produces the lines `[[], ["a"], ["a"]]`, and the
width-1 lines exceed the max width 0. -/
theorem wrapCellSpans_width_cex :
    ¬ ∀ l ∈ wrapCellSpans [⟨['a', 'a'], Style.default⟩] 0 5 Style.default,
        lineWidth l ≤ 0 := by
  decide

/-- C2 witness: the amended theorem applied at a concrete wrap call, read
off at its single output line. -/
theorem wrapCellSpans_width_witness :
    lineWidth [⟨['h', 'i'], Style.default⟩] ≤ 5 :=
  wrapCellSpans_width [⟨['h', 'i'], Style.default⟩] 5 3 Style.default (by decide)
    [⟨['h', 'i'], Style.default⟩] (by decide)

/-! ### Truncation behaviour of the wrap engine (C3)

`wrapWordsLoop` is compared with `packWordsLoop`, its no-line-limit
variant: the two run in lockstep until the first push that would create
line number `max_lines`, where the limited loop truncates. -/

theorem getD_append_self {α : Type} (l₁ l₂ : List α) (x : α) (d : α) :
    (l₁ ++ x :: l₂).getD l₁.length d = x := by
  induction l₁ with
  | nil => simp
  | cons a t ih => simpa using ih

theorem packSplitChars_grows (maxWidth : Nat) (chars : List (Char × Nat × Style)) :
    ∀ lines cur w, ∃ t, (packSplitChars maxWidth chars lines cur w).1 = lines ++ t := by
  induction chars with
  | nil => intro lines cur w; exact ⟨[], by simp [packSplitChars]⟩
  | cons tch rest ih =>
    obtain ⟨ch, cw, st⟩ := tch
    intro lines cur w
    by_cases hov : maxWidth < w + cw
    · obtain ⟨t, ht⟩ := ih (lines ++ [coalesceChars cur]) [(ch, st)] cw
      refine ⟨[coalesceChars cur] ++ t, ?_⟩
      simp only [packSplitChars, if_pos hov, ht, List.append_assoc]
    · obtain ⟨t, ht⟩ := ih lines (cur ++ [(ch, st)]) (w + cw)
      refine ⟨t, ?_⟩
      simp only [packSplitChars, if_neg hov, ht]

theorem packSplitChars_cur_ne (maxWidth : Nat) (chars : List (Char × Nat × Style)) :
    ∀ lines cur w, (chars ≠ [] ∨ cur ≠ []) →
      (packSplitChars maxWidth chars lines cur w).2.1 ≠ [] := by
  induction chars with
  | nil =>
    intro lines cur w h
    rcases h with h | h
    · exact absurd rfl h
    · simpa [packSplitChars] using h
  | cons tch rest ih =>
    obtain ⟨ch, cw, st⟩ := tch
    intro lines cur w _h
    by_cases hov : maxWidth < w + cw
    · simp only [packSplitChars, if_pos hov]
      exact ih (lines ++ [coalesceChars cur]) [(ch, st)] cw (Or.inr (by simp))
    · simp only [packSplitChars, if_neg hov]
      exact ih lines (cur ++ [(ch, st)]) (w + cw) (Or.inr (by simp))

theorem packWordsLoop_grows (maxWidth : Nat) (words : List StyledWord) :
    ∀ lines cur w, ∃ t, packWordsLoop maxWidth words lines cur w = lines ++ t := by
  induction words with
  | nil =>
    intro lines cur w
    by_cases hc : cur.isEmpty
    · by_cases he : lines.isEmpty
      · have : lines = [] := by simpa using he
        exact ⟨[[]], by simp [packWordsLoop, hc, he, this]⟩
      · exact ⟨[], by simp [packWordsLoop, hc, he]⟩
    · refine ⟨[coalesceChars cur], ?_⟩
      have hne : (lines ++ [coalesceChars cur]).isEmpty = false := by simp
      simp [packWordsLoop, hc, hne]
  | cons word rest ih =>
    intro lines cur w
    by_cases hbrk : 0 < w ∧ maxWidth < w + word.width
    · by_cases hhard : maxWidth < word.width
      · obtain ⟨t0, ht0⟩ := packSplitChars_grows maxWidth word.chars
          (lines ++ [coalesceChars cur]) [] 0
        rcases hres : packSplitChars maxWidth word.chars (lines ++ [coalesceChars cur]) [] 0
          with ⟨lines2, cur2, w2⟩
        rw [hres] at ht0
        simp only at ht0
        by_cases hts : word.trailingSpace ∧ w2 < maxWidth
        · obtain ⟨t1, ht1⟩ := ih lines2 (cur2 ++ [(' ', trailingStyle word)]) (w2 + 1)
          refine ⟨[coalesceChars cur] ++ t0 ++ t1, ?_⟩
          have hstep : packWordsLoop maxWidth (word :: rest) lines cur w =
              packWordsLoop maxWidth rest lines2 (cur2 ++ [(' ', trailingStyle word)])
                (w2 + 1) := by
            simp only [packWordsLoop, if_pos hbrk, if_pos hhard, hres, if_pos hts]
          rw [hstep, ht1, ht0]
          simp [List.append_assoc]
        · obtain ⟨t1, ht1⟩ := ih lines2 cur2 w2
          refine ⟨[coalesceChars cur] ++ t0 ++ t1, ?_⟩
          have hstep : packWordsLoop maxWidth (word :: rest) lines cur w =
              packWordsLoop maxWidth rest lines2 cur2 w2 := by
            simp only [packWordsLoop, if_pos hbrk, if_pos hhard, hres, if_neg hts]
          rw [hstep, ht1, ht0]
          simp [List.append_assoc]
      · by_cases hts : word.trailingSpace ∧ 0 + word.width < maxWidth
        · obtain ⟨t1, ht1⟩ := ih (lines ++ [coalesceChars cur])
            (([] : List (Char × Style)) ++ (word.chars.map (fun t => (t.1, t.2.2)) ++
              [(' ', trailingStyle word)])) (0 + word.width + 1)
          refine ⟨[coalesceChars cur] ++ t1, ?_⟩
          simp only [packWordsLoop, if_pos hbrk, if_neg hhard, if_pos hts,
            List.append_assoc, ht1]
        · obtain ⟨t1, ht1⟩ := ih (lines ++ [coalesceChars cur])
            (([] : List (Char × Style)) ++ word.chars.map fun t => (t.1, t.2.2))
            (0 + word.width)
          refine ⟨[coalesceChars cur] ++ t1, ?_⟩
          simp only [packWordsLoop, if_pos hbrk, if_neg hhard, if_neg hts,
            List.append_assoc, ht1]
    · by_cases hhard : maxWidth < word.width
      · obtain ⟨t0, ht0⟩ := packSplitChars_grows maxWidth word.chars lines cur w
        rcases hres : packSplitChars maxWidth word.chars lines cur w with ⟨lines2, cur2, w2⟩
        rw [hres] at ht0
        simp only at ht0
        by_cases hts : word.trailingSpace ∧ w2 < maxWidth
        · obtain ⟨t1, ht1⟩ := ih lines2 (cur2 ++ [(' ', trailingStyle word)]) (w2 + 1)
          refine ⟨t0 ++ t1, ?_⟩
          have hstep : packWordsLoop maxWidth (word :: rest) lines cur w =
              packWordsLoop maxWidth rest lines2 (cur2 ++ [(' ', trailingStyle word)])
                (w2 + 1) := by
            simp only [packWordsLoop, if_neg hbrk, if_pos hhard, hres, if_pos hts]
          rw [hstep, ht1, ht0]
          simp [List.append_assoc]
        · obtain ⟨t1, ht1⟩ := ih lines2 cur2 w2
          refine ⟨t0 ++ t1, ?_⟩
          have hstep : packWordsLoop maxWidth (word :: rest) lines cur w =
              packWordsLoop maxWidth rest lines2 cur2 w2 := by
            simp only [packWordsLoop, if_neg hbrk, if_pos hhard, hres, if_neg hts]
          rw [hstep, ht1, ht0]
          simp [List.append_assoc]
      · by_cases hts : word.trailingSpace ∧ w + word.width < maxWidth
        · obtain ⟨t1, ht1⟩ := ih lines
            (cur ++ word.chars.map (fun t => (t.1, t.2.2)) ++ [(' ', trailingStyle word)])
            (w + word.width + 1)
          exact ⟨t1, by simp only [packWordsLoop, if_neg hbrk, if_neg hhard, if_pos hts, ht1]⟩
        · obtain ⟨t1, ht1⟩ := ih lines (cur ++ word.chars.map fun t => (t.1, t.2.2))
            (w + word.width)
          exact ⟨t1, by simp only [packWordsLoop, if_neg hbrk, if_neg hhard, if_neg hts, ht1]⟩

theorem splitGo_chars_ne (rest : List (Char × Nat × Style)) :
    ∀ current width, ∀ word ∈ splitGo rest current width, word.chars ≠ [] := by
  induction rest with
  | nil =>
    intro current width word hword
    by_cases h : current.isEmpty
    · simp [splitGo, h] at hword
    · simp only [splitGo, if_neg h, List.mem_singleton] at hword
      subst hword
      simpa using h
  | cons t ts ih =>
    obtain ⟨c, cw, st⟩ := t
    intro current width word hword
    by_cases hsp : c = ' '
    · by_cases hemp : current.isEmpty
      · simp only [splitGo, if_pos hsp, if_pos hemp] at hword
        exact ih current width word hword
      · simp only [splitGo, if_pos hsp, if_neg hemp, List.mem_cons] at hword
        rcases hword with h | h
        · subst h
          simpa using hemp
        · exact ih [] 0 word h
    · simp only [splitGo, if_neg hsp] at hword
      exact ih (current ++ [(c, cw, st)]) (width + cw) word hword

theorem packWordsLoop_ge (maxWidth : Nat) (words : List StyledWord) :
    ∀ lines cur w, (∀ word ∈ words, word.chars ≠ []) → (words ≠ [] ∨ cur ≠ []) →
      lines.length + 1 ≤ (packWordsLoop maxWidth words lines cur w).length := by
  induction words with
  | nil =>
    intro lines cur w _hw h
    have hc : cur ≠ [] := by
      rcases h with h | h
      · exact absurd rfl h
      · exact h
    have hce : ¬ cur.isEmpty := by simpa using hc
    have hne : (lines ++ [coalesceChars cur]).isEmpty = false := by simp
    simp [packWordsLoop, hce, hne]
  | cons word rest ih =>
    intro lines cur w hw _h
    have hwchars : word.chars ≠ [] := hw word (List.mem_cons_self _ _)
    have hwrest : ∀ u ∈ rest, u.chars ≠ [] := fun u hu => hw u (List.mem_cons_of_mem _ hu)
    by_cases hbrk : 0 < w ∧ maxWidth < w + word.width
    · by_cases hhard : maxWidth < word.width
      · rcases hres : packSplitChars maxWidth word.chars (lines ++ [coalesceChars cur]) [] 0
          with ⟨lines2, cur2, w2⟩
        have hcur2 : cur2 ≠ [] := by
          have h2 := packSplitChars_cur_ne maxWidth word.chars
            (lines ++ [coalesceChars cur]) [] 0 (Or.inl hwchars)
          rw [hres] at h2
          exact h2
        obtain ⟨t0, ht0⟩ := packSplitChars_grows maxWidth word.chars
          (lines ++ [coalesceChars cur]) [] 0
        rw [hres] at ht0
        simp only at ht0 hcur2
        have hlen : lines.length ≤ lines2.length := by
          rw [ht0]
          simp
        by_cases hts : word.trailingSpace ∧ w2 < maxWidth
        · have hstep : packWordsLoop maxWidth (word :: rest) lines cur w =
              packWordsLoop maxWidth rest lines2 (cur2 ++ [(' ', trailingStyle word)])
                (w2 + 1) := by
            simp only [packWordsLoop, if_pos hbrk, if_pos hhard, hres, if_pos hts]
          rw [hstep]
          have h3 := ih lines2 (cur2 ++ [(' ', trailingStyle word)]) (w2 + 1) hwrest
            (Or.inr (by simp))
          omega
        · have hstep : packWordsLoop maxWidth (word :: rest) lines cur w =
              packWordsLoop maxWidth rest lines2 cur2 w2 := by
            simp only [packWordsLoop, if_pos hbrk, if_pos hhard, hres, if_neg hts]
          rw [hstep]
          have h3 := ih lines2 cur2 w2 hwrest (Or.inr hcur2)
          omega
      · have hmapne : word.chars.map (fun t => (t.1, t.2.2)) ≠ [] := by
          simpa using hwchars
        by_cases hts : word.trailingSpace ∧ 0 + word.width < maxWidth
        · have hstep : packWordsLoop maxWidth (word :: rest) lines cur w =
              packWordsLoop maxWidth rest (lines ++ [coalesceChars cur])
                (([] : List (Char × Style)) ++
                  (word.chars.map (fun t => (t.1, t.2.2)) ++ [(' ', trailingStyle word)]))
                (0 + word.width + 1) := by
            simp only [packWordsLoop, if_pos hbrk, if_neg hhard, if_pos hts,
              List.append_assoc]
          rw [hstep]
          have h3 := ih (lines ++ [coalesceChars cur])
            (([] : List (Char × Style)) ++
              (word.chars.map (fun t => (t.1, t.2.2)) ++ [(' ', trailingStyle word)]))
            (0 + word.width + 1) hwrest (Or.inr (by simp))
          simp only [List.length_append, List.length_cons, List.length_nil] at h3 ⊢
          omega
        · have hstep : packWordsLoop maxWidth (word :: rest) lines cur w =
              packWordsLoop maxWidth rest (lines ++ [coalesceChars cur])
                (([] : List (Char × Style)) ++ word.chars.map fun t => (t.1, t.2.2))
                (0 + word.width) := by
            simp only [packWordsLoop, if_pos hbrk, if_neg hhard, if_neg hts]
          rw [hstep]
          have h3 := ih (lines ++ [coalesceChars cur])
            (([] : List (Char × Style)) ++ word.chars.map fun t => (t.1, t.2.2))
            (0 + word.width) hwrest (Or.inr (by simpa using hmapne))
          simp only [List.length_append, List.length_cons, List.length_nil] at h3 ⊢
          omega
    · by_cases hhard : maxWidth < word.width
      · rcases hres : packSplitChars maxWidth word.chars lines cur w
          with ⟨lines2, cur2, w2⟩
        have hcur2 : cur2 ≠ [] := by
          have h2 := packSplitChars_cur_ne maxWidth word.chars lines cur w (Or.inl hwchars)
          rw [hres] at h2
          exact h2
        obtain ⟨t0, ht0⟩ := packSplitChars_grows maxWidth word.chars lines cur w
        rw [hres] at ht0
        simp only at ht0 hcur2
        have hlen : lines.length ≤ lines2.length := by
          rw [ht0]
          simp
        by_cases hts : word.trailingSpace ∧ w2 < maxWidth
        · have hstep : packWordsLoop maxWidth (word :: rest) lines cur w =
              packWordsLoop maxWidth rest lines2 (cur2 ++ [(' ', trailingStyle word)])
                (w2 + 1) := by
            simp only [packWordsLoop, if_neg hbrk, if_pos hhard, hres, if_pos hts]
          rw [hstep]
          have h3 := ih lines2 (cur2 ++ [(' ', trailingStyle word)]) (w2 + 1) hwrest
            (Or.inr (by simp))
          omega
        · have hstep : packWordsLoop maxWidth (word :: rest) lines cur w =
              packWordsLoop maxWidth rest lines2 cur2 w2 := by
            simp only [packWordsLoop, if_neg hbrk, if_pos hhard, hres, if_neg hts]
          rw [hstep]
          have h3 := ih lines2 cur2 w2 hwrest (Or.inr hcur2)
          omega
      · have hmapne : word.chars.map (fun t => (t.1, t.2.2)) ≠ [] := by
          simpa using hwchars
        by_cases hts : word.trailingSpace ∧ w + word.width < maxWidth
        · have hstep : packWordsLoop maxWidth (word :: rest) lines cur w =
              packWordsLoop maxWidth rest lines
                (cur ++ (word.chars.map (fun t => (t.1, t.2.2)) ++ [(' ', trailingStyle word)]))
                (w + word.width + 1) := by
            simp only [packWordsLoop, if_neg hbrk, if_neg hhard, if_pos hts,
              List.append_assoc]
          rw [hstep]
          exact ih lines
            (cur ++ (word.chars.map (fun t => (t.1, t.2.2)) ++ [(' ', trailingStyle word)]))
            (w + word.width + 1) hwrest (Or.inr (by simp))
        · have hstep : packWordsLoop maxWidth (word :: rest) lines cur w =
              packWordsLoop maxWidth rest lines
                (cur ++ word.chars.map fun t => (t.1, t.2.2)) (w + word.width) := by
            simp only [packWordsLoop, if_neg hbrk, if_neg hhard, if_neg hts]
          rw [hstep]
          refine ih lines (cur ++ word.chars.map fun t => (t.1, t.2.2)) (w + word.width)
            hwrest (Or.inr ?_)
          intro hc
          exact hmapne (List.append_eq_nil.mp hc).2

/-- Lockstep simulation of the hard-split inner loop against its
no-line-limit variant: either no truncation fires and both compute the
same state (with fewer than `max_lines` lines so far), or the limited loop
returns early with exactly the first `max_lines - 1` packed lines plus the
truncation of the line the packing loop would have pushed next. -/
theorem hardSplitChars_sim (maxWidth maxLines : Nat)
    (chars : List (Char × Nat × Style)) :
    ∀ lines cur w, lines.length < maxLines →
    (hardSplitChars maxWidth maxLines chars lines cur w =
        .ok (packSplitChars maxWidth chars lines cur w) ∧
      (packSplitChars maxWidth chars lines cur w).1.length < maxLines)
    ∨ (hardSplitChars maxWidth maxLines chars lines cur w =
        .error ((packSplitChars maxWidth chars lines cur w).1.take (maxLines - 1) ++
          [truncateLineSpans
              ((packSplitChars maxWidth chars lines cur w).1.getD (maxLines - 1) [])
              (maxWidth - 1) ++ [ellipsisSpan]]) ∧
      maxLines ≤ (packSplitChars maxWidth chars lines cur w).1.length ∧
      (packSplitChars maxWidth chars lines cur w).2.1 ≠ []) := by
  induction chars with
  | nil =>
    intro lines cur w hlen
    left
    constructor
    · simp [hardSplitChars, packSplitChars]
    · simpa [packSplitChars] using hlen
  | cons tch rest ih =>
    obtain ⟨ch, cw, st⟩ := tch
    intro lines cur w hlen
    by_cases hov : maxWidth < w + cw
    · by_cases htr : maxLines ≤ lines.length + 1
      · right
        have hlin : lines.length = maxLines - 1 := by omega
        rcases hres : packSplitChars maxWidth rest (lines ++ [coalesceChars cur])
            [(ch, st)] cw with ⟨lines2, cur2, w2⟩
        obtain ⟨t0, ht0⟩ := packSplitChars_grows maxWidth rest
          (lines ++ [coalesceChars cur]) [(ch, st)] cw
        rw [hres] at ht0
        simp only at ht0
        have hcur2 : cur2 ≠ [] := by
          have h2 := packSplitChars_cur_ne maxWidth rest (lines ++ [coalesceChars cur])
            [(ch, st)] cw (Or.inr (by simp))
          rw [hres] at h2
          exact h2
        have hpack : packSplitChars maxWidth ((ch, cw, st) :: rest) lines cur w =
            (lines2, cur2, w2) := by
          simp only [packSplitChars, if_pos hov, hres]
        rw [hpack]
        have hlines2 : lines2 = lines ++ coalesceChars cur :: t0 := by
          rw [ht0]
          simp
        have htake : lines2.take (maxLines - 1) = lines := by
          rw [hlines2, ← hlin]
          exact List.take_left lines _
        have hgetd : lines2.getD (maxLines - 1) [] = coalesceChars cur := by
          rw [hlines2, ← hlin]
          exact getD_append_self lines t0 (coalesceChars cur) []
        refine ⟨?_, ?_, hcur2⟩
        · simp only [hardSplitChars, if_pos hov, if_pos htr, finishTruncated]
          rw [htake, hgetd]
        · have hl2 : lines2.length = lines.length + (t0.length + 1) := by
            rw [hlines2]
            simp
          show maxLines ≤ lines2.length
          omega
      · have hlen2 : (lines ++ [coalesceChars cur]).length < maxLines := by
          simp only [List.length_append, List.length_cons, List.length_nil]
          omega
        have hw : hardSplitChars maxWidth maxLines ((ch, cw, st) :: rest) lines cur w =
            hardSplitChars maxWidth maxLines rest (lines ++ [coalesceChars cur])
              [(ch, st)] cw := by
          simp only [hardSplitChars, if_pos hov, if_neg htr]
        have hp : packSplitChars maxWidth ((ch, cw, st) :: rest) lines cur w =
            packSplitChars maxWidth rest (lines ++ [coalesceChars cur]) [(ch, st)] cw := by
          simp only [packSplitChars, if_pos hov]
        rw [hw, hp]
        exact ih (lines ++ [coalesceChars cur]) [(ch, st)] cw hlen2
    · have hw : hardSplitChars maxWidth maxLines ((ch, cw, st) :: rest) lines cur w =
          hardSplitChars maxWidth maxLines rest lines (cur ++ [(ch, st)]) (w + cw) := by
        simp only [hardSplitChars, if_neg hov]
      have hp : packSplitChars maxWidth ((ch, cw, st) :: rest) lines cur w =
          packSplitChars maxWidth rest lines (cur ++ [(ch, st)]) (w + cw) := by
        simp only [packSplitChars, if_neg hov]
      rw [hw, hp]
      exact ih lines (cur ++ [(ch, st)]) (w + cw) hlen

/-- The simulation relation between the limited wrap loop and the
no-limit packing loop, from a common state: either they agree (and the
packing fits the limit), or the packing needs more than `max_lines` lines
and the wrap loop returns its first `max_lines - 1` lines plus the
ellipsis-truncated next line. -/
def SimSpec (maxWidth maxLines : Nat) (words : List StyledWord)
    (lines : List (List Span)) (cur : List (Char × Style)) (w : Nat) : Prop :=
  (wrapWordsLoop maxWidth maxLines words lines cur w =
      packWordsLoop maxWidth words lines cur w ∧
    (packWordsLoop maxWidth words lines cur w).length ≤ maxLines)
  ∨ (maxLines < (packWordsLoop maxWidth words lines cur w).length ∧
    wrapWordsLoop maxWidth maxLines words lines cur w =
      (packWordsLoop maxWidth words lines cur w).take (maxLines - 1) ++
        [truncateLineSpans
            ((packWordsLoop maxWidth words lines cur w).getD (maxLines - 1) [])
            (maxWidth - 1) ++ [ellipsisSpan]])

/-- When the word loop's line-break step fires, the packing loop pushes the
current line and (because the word itself still has characters to place
and they end up flushed) produces at least one further line after it. -/
theorem packWordsLoop_break_shape (maxWidth : Nat) (word : StyledWord)
    (rest : List StyledWord) (lines : List (List Span)) (cur : List (Char × Style))
    (w : Nat) (hbrk : 0 < w ∧ maxWidth < w + word.width)
    (hw : ∀ u ∈ word :: rest, u.chars ≠ []) :
    ∃ t, packWordsLoop maxWidth (word :: rest) lines cur w =
        lines ++ coalesceChars cur :: t ∧ 1 ≤ t.length := by
  have hwchars : word.chars ≠ [] := hw word (List.mem_cons_self _ _)
  have hwrest : ∀ u ∈ rest, u.chars ≠ [] := fun u hu => hw u (List.mem_cons_of_mem _ hu)
  by_cases hhard : maxWidth < word.width
  · rcases hres : packSplitChars maxWidth word.chars (lines ++ [coalesceChars cur]) [] 0
      with ⟨lines2, cur2, w2⟩
    have hcur2 : cur2 ≠ [] := by
      have h2 := packSplitChars_cur_ne maxWidth word.chars
        (lines ++ [coalesceChars cur]) [] 0 (Or.inl hwchars)
      rw [hres] at h2
      exact h2
    obtain ⟨t0, ht0⟩ := packSplitChars_grows maxWidth word.chars
      (lines ++ [coalesceChars cur]) [] 0
    rw [hres] at ht0
    simp only at ht0 hcur2
    by_cases hts : word.trailingSpace ∧ w2 < maxWidth
    · have hstep : packWordsLoop maxWidth (word :: rest) lines cur w =
          packWordsLoop maxWidth rest lines2 (cur2 ++ [(' ', trailingStyle word)])
            (w2 + 1) := by
        simp only [packWordsLoop, if_pos hbrk, if_pos hhard, hres, if_pos hts]
      obtain ⟨t1, ht1⟩ := packWordsLoop_grows maxWidth rest lines2
        (cur2 ++ [(' ', trailingStyle word)]) (w2 + 1)
      have hge := packWordsLoop_ge maxWidth rest lines2
        (cur2 ++ [(' ', trailingStyle word)]) (w2 + 1) hwrest (Or.inr (by simp))
      refine ⟨t0 ++ t1, ?_, ?_⟩
      · rw [hstep, ht1, ht0]
        simp
      · rw [ht1, ht0] at hge
        simp only [List.length_append, List.length_cons, List.length_nil] at hge ⊢
        omega
    · have hstep : packWordsLoop maxWidth (word :: rest) lines cur w =
          packWordsLoop maxWidth rest lines2 cur2 w2 := by
        simp only [packWordsLoop, if_pos hbrk, if_pos hhard, hres, if_neg hts]
      obtain ⟨t1, ht1⟩ := packWordsLoop_grows maxWidth rest lines2 cur2 w2
      have hge := packWordsLoop_ge maxWidth rest lines2 cur2 w2 hwrest (Or.inr hcur2)
      refine ⟨t0 ++ t1, ?_, ?_⟩
      · rw [hstep, ht1, ht0]
        simp
      · rw [ht1, ht0] at hge
        simp only [List.length_append, List.length_cons, List.length_nil] at hge ⊢
        omega
  · have hmapne : word.chars.map (fun t => (t.1, t.2.2)) ≠ [] := by
      simpa using hwchars
    by_cases hts : word.trailingSpace ∧ 0 + word.width < maxWidth
    · have hstep : packWordsLoop maxWidth (word :: rest) lines cur w =
          packWordsLoop maxWidth rest (lines ++ [coalesceChars cur])
            (([] : List (Char × Style)) ++
              (word.chars.map (fun t => (t.1, t.2.2)) ++ [(' ', trailingStyle word)]))
            (0 + word.width + 1) := by
        simp only [packWordsLoop, if_pos hbrk, if_neg hhard, if_pos hts, List.append_assoc]
      obtain ⟨t1, ht1⟩ := packWordsLoop_grows maxWidth rest (lines ++ [coalesceChars cur])
        (([] : List (Char × Style)) ++
          (word.chars.map (fun t => (t.1, t.2.2)) ++ [(' ', trailingStyle word)]))
        (0 + word.width + 1)
      have hge := packWordsLoop_ge maxWidth rest (lines ++ [coalesceChars cur])
        (([] : List (Char × Style)) ++
          (word.chars.map (fun t => (t.1, t.2.2)) ++ [(' ', trailingStyle word)]))
        (0 + word.width + 1) hwrest (Or.inr (by simp))
      refine ⟨t1, ?_, ?_⟩
      · rw [hstep, ht1]
        simp
      · rw [ht1] at hge
        simp only [List.length_append, List.length_cons, List.length_nil] at hge ⊢
        omega
    · have hstep : packWordsLoop maxWidth (word :: rest) lines cur w =
          packWordsLoop maxWidth rest (lines ++ [coalesceChars cur])
            (([] : List (Char × Style)) ++ word.chars.map fun t => (t.1, t.2.2))
            (0 + word.width) := by
        simp only [packWordsLoop, if_pos hbrk, if_neg hhard, if_neg hts]
      obtain ⟨t1, ht1⟩ := packWordsLoop_grows maxWidth rest (lines ++ [coalesceChars cur])
        (([] : List (Char × Style)) ++ word.chars.map fun t => (t.1, t.2.2))
        (0 + word.width)
      have hge := packWordsLoop_ge maxWidth rest (lines ++ [coalesceChars cur])
        (([] : List (Char × Style)) ++ word.chars.map fun t => (t.1, t.2.2))
        (0 + word.width) hwrest (Or.inr (by simpa using hmapne))
      refine ⟨t1, ?_, ?_⟩
      · rw [hstep, ht1]
        simp
      · rw [ht1] at hge
        simp only [List.length_append, List.length_cons, List.length_nil] at hge ⊢
        omega

/-- One word step of the simulation, in a state where the line-break step
does not fire (its condition is false).  The induction hypothesis for the
remaining words is taken as an argument. -/
theorem wrapWordsLoop_sim_step (maxWidth maxLines : Nat)
    (word : StyledWord) (rest : List StyledWord)
    (_hchars : word.chars ≠ []) (hwrest : ∀ u ∈ rest, u.chars ≠ [])
    (IH : ∀ lines cur w, lines.length < maxLines →
      SimSpec maxWidth maxLines rest lines cur w) :
    ∀ L C W, L.length < maxLines → ¬ (0 < W ∧ maxWidth < W + word.width) →
    SimSpec maxWidth maxLines (word :: rest) L C W := by
  intro L C W hlen hnb
  by_cases hhard : maxWidth < word.width
  · rcases hps : packSplitChars maxWidth word.chars L C W with ⟨l2, c2, w2⟩
    have hsim := hardSplitChars_sim maxWidth maxLines word.chars L C W hlen
    rw [hps] at hsim
    simp only at hsim
    rcases hsim with ⟨hok, hlt⟩ | ⟨herr, hge, hcur⟩
    · by_cases hts : word.trailingSpace ∧ w2 < maxWidth
      · have hstepW : wrapWordsLoop maxWidth maxLines (word :: rest) L C W =
            wrapWordsLoop maxWidth maxLines rest l2 (c2 ++ [(' ', trailingStyle word)])
              (w2 + 1) := by
          simp only [wrapWordsLoop, if_neg hnb, if_pos hhard, hok, if_pos hts]
        have hstepP : packWordsLoop maxWidth (word :: rest) L C W =
            packWordsLoop maxWidth rest l2 (c2 ++ [(' ', trailingStyle word)])
              (w2 + 1) := by
          simp only [packWordsLoop, if_neg hnb, if_pos hhard, hps, if_pos hts]
        have h3 := IH l2 (c2 ++ [(' ', trailingStyle word)]) (w2 + 1) hlt
        simpa only [SimSpec, hstepW, hstepP] using h3
      · have hstepW : wrapWordsLoop maxWidth maxLines (word :: rest) L C W =
            wrapWordsLoop maxWidth maxLines rest l2 c2 w2 := by
          simp only [wrapWordsLoop, if_neg hnb, if_pos hhard, hok, if_neg hts]
        have hstepP : packWordsLoop maxWidth (word :: rest) L C W =
            packWordsLoop maxWidth rest l2 c2 w2 := by
          simp only [packWordsLoop, if_neg hnb, if_pos hhard, hps, if_neg hts]
        have h3 := IH l2 c2 w2 hlt
        simpa only [SimSpec, hstepW, hstepP] using h3
    · have hstepW : wrapWordsLoop maxWidth maxLines (word :: rest) L C W =
          l2.take (maxLines - 1) ++
            [truncateLineSpans (l2.getD (maxLines - 1) []) (maxWidth - 1) ++
              [ellipsisSpan]] := by
        simp only [wrapWordsLoop, if_neg hnb, if_pos hhard, herr]
      by_cases hts : word.trailingSpace ∧ w2 < maxWidth
      · have hstepP : packWordsLoop maxWidth (word :: rest) L C W =
            packWordsLoop maxWidth rest l2 (c2 ++ [(' ', trailingStyle word)])
              (w2 + 1) := by
          simp only [packWordsLoop, if_neg hnb, if_pos hhard, hps, if_pos hts]
        obtain ⟨t1, ht1⟩ := packWordsLoop_grows maxWidth rest l2
          (c2 ++ [(' ', trailingStyle word)]) (w2 + 1)
        have hgeP := packWordsLoop_ge maxWidth rest l2
          (c2 ++ [(' ', trailingStyle word)]) (w2 + 1) hwrest (Or.inr (by simp))
        rw [ht1] at hgeP
        right
        constructor
        · rw [hstepP, ht1]
          simp only [List.length_append] at hgeP ⊢
          omega
        · rw [hstepW, hstepP, ht1,
            List.take_append_of_le_length (show maxLines - 1 ≤ l2.length by omega),
            List.getD_append l2 t1 [] (maxLines - 1) (by omega)]
      · have hstepP : packWordsLoop maxWidth (word :: rest) L C W =
            packWordsLoop maxWidth rest l2 c2 w2 := by
          simp only [packWordsLoop, if_neg hnb, if_pos hhard, hps, if_neg hts]
        obtain ⟨t1, ht1⟩ := packWordsLoop_grows maxWidth rest l2 c2 w2
        have hgeP := packWordsLoop_ge maxWidth rest l2 c2 w2 hwrest (Or.inr hcur)
        rw [ht1] at hgeP
        right
        constructor
        · rw [hstepP, ht1]
          simp only [List.length_append] at hgeP ⊢
          omega
        · rw [hstepW, hstepP, ht1,
            List.take_append_of_le_length (show maxLines - 1 ≤ l2.length by omega),
            List.getD_append l2 t1 [] (maxLines - 1) (by omega)]
  · by_cases hts : word.trailingSpace ∧ W + word.width < maxWidth
    · have hstepW : wrapWordsLoop maxWidth maxLines (word :: rest) L C W =
          wrapWordsLoop maxWidth maxLines rest L
            (C ++ (word.chars.map (fun t => (t.1, t.2.2)) ++ [(' ', trailingStyle word)]))
            (W + word.width + 1) := by
        simp only [wrapWordsLoop, if_neg hnb, if_neg hhard, if_pos hts, List.append_assoc]
      have hstepP : packWordsLoop maxWidth (word :: rest) L C W =
          packWordsLoop maxWidth rest L
            (C ++ (word.chars.map (fun t => (t.1, t.2.2)) ++ [(' ', trailingStyle word)]))
            (W + word.width + 1) := by
        simp only [packWordsLoop, if_neg hnb, if_neg hhard, if_pos hts, List.append_assoc]
      have h3 := IH L
        (C ++ (word.chars.map (fun t => (t.1, t.2.2)) ++ [(' ', trailingStyle word)]))
        (W + word.width + 1) hlen
      simpa only [SimSpec, hstepW, hstepP] using h3
    · have hstepW : wrapWordsLoop maxWidth maxLines (word :: rest) L C W =
          wrapWordsLoop maxWidth maxLines rest L
            (C ++ word.chars.map fun t => (t.1, t.2.2)) (W + word.width) := by
        simp only [wrapWordsLoop, if_neg hnb, if_neg hhard, if_neg hts]
      have hstepP : packWordsLoop maxWidth (word :: rest) L C W =
          packWordsLoop maxWidth rest L
            (C ++ word.chars.map fun t => (t.1, t.2.2)) (W + word.width) := by
        simp only [packWordsLoop, if_neg hnb, if_neg hhard, if_neg hts]
      have h3 := IH L (C ++ word.chars.map fun t => (t.1, t.2.2)) (W + word.width) hlen
      simpa only [SimSpec, hstepW, hstepP] using h3

/-- Full simulation of the limited wrap loop against the packing loop. -/
theorem wrapWordsLoop_sim (maxWidth maxLines : Nat) (hml : 1 ≤ maxLines)
    (words : List StyledWord) :
    ∀ lines cur w, (∀ word ∈ words, word.chars ≠ []) → lines.length < maxLines →
    SimSpec maxWidth maxLines words lines cur w := by
  induction words with
  | nil =>
    intro lines cur w _hw hlen
    left
    refine ⟨rfl, ?_⟩
    by_cases hc : cur.isEmpty
    · by_cases he : lines.isEmpty
      · have h0 : lines = [] := by simpa using he
        simp only [packWordsLoop, if_pos hc, if_pos he, h0]
        simpa using hml
      · simp only [packWordsLoop, if_pos hc, if_neg he]
        omega
    · have hne : (lines ++ [coalesceChars cur]).isEmpty = false := by simp
      simp only [packWordsLoop, if_neg hc, hne, Bool.false_eq_true, if_false,
        List.length_append, List.length_cons, List.length_nil]
      omega
  | cons word rest ih =>
    intro lines cur w hw hlen
    have hwchars : word.chars ≠ [] := hw word (List.mem_cons_self _ _)
    have hwrest : ∀ u ∈ rest, u.chars ≠ [] := fun u hu => hw u (List.mem_cons_of_mem _ hu)
    have IH : ∀ L C W, L.length < maxLines → SimSpec maxWidth maxLines rest L C W :=
      fun L C W h => ih L C W hwrest h
    by_cases hbrk : 0 < w ∧ maxWidth < w + word.width
    · by_cases htr : maxLines ≤ lines.length + 1
      · right
        obtain ⟨t, hshape, ht⟩ :=
          packWordsLoop_break_shape maxWidth word rest lines cur w hbrk hw
        have hlin : lines.length = maxLines - 1 := by omega
        have hstepW : wrapWordsLoop maxWidth maxLines (word :: rest) lines cur w =
            finishTruncated lines cur maxWidth := by
          simp only [wrapWordsLoop, if_pos hbrk, if_pos htr]
        constructor
        · rw [hshape]
          simp only [List.length_append, List.length_cons]
          omega
        · have htake : (lines ++ coalesceChars cur :: t).take (maxLines - 1) = lines := by
            rw [← hlin]
            exact List.take_left lines _
          have hgetd : (lines ++ coalesceChars cur :: t).getD (maxLines - 1) [] =
              coalesceChars cur := by
            rw [← hlin]
            exact getD_append_self lines t (coalesceChars cur) []
          rw [hstepW, hshape, htake, hgetd, finishTruncated]
      · have hnb0 : ¬ (0 < 0 ∧ maxWidth < 0 + word.width) := by simp
        have hsameW : wrapWordsLoop maxWidth maxLines (word :: rest) lines cur w =
            wrapWordsLoop maxWidth maxLines (word :: rest)
              (lines ++ [coalesceChars cur]) [] 0 := by
          simp only [wrapWordsLoop, if_pos hbrk, if_neg htr, if_neg hnb0]
        have hsameP : packWordsLoop maxWidth (word :: rest) lines cur w =
            packWordsLoop maxWidth (word :: rest)
              (lines ++ [coalesceChars cur]) [] 0 := by
          simp only [packWordsLoop, if_pos hbrk, if_neg hnb0]
        have hlen1 : (lines ++ [coalesceChars cur]).length < maxLines := by
          simp only [List.length_append, List.length_cons, List.length_nil]
          omega
        have h3 := wrapWordsLoop_sim_step maxWidth maxLines word rest hwchars hwrest IH
          (lines ++ [coalesceChars cur]) [] 0 hlen1 hnb0
        simpa only [SimSpec, hsameW, hsameP] using h3
    · exact wrapWordsLoop_sim_step maxWidth maxLines word rest hwchars hwrest IH
        lines cur w hlen hbrk

/-- C3 (amended): for every wrap call with a max-lines limit of at least 1
whose content would require more than `max_lines` lines to pack (the
no-limit packing produces more than `max_lines` lines), the output of
`wrap_cell_spans` has exactly `max_lines` lines; its last line is the
packing's line number `max_lines` truncated to `max_width - 1` display
columns — span structure and styles preserved by `truncate_line_spans` —
with one undecorated ellipsis span appended as its final element.  (The
claim's original form, for *every* max-lines limit, is refuted by
`wrapCellSpans_truncates_cex` below: with `max_lines = 0` the truncated
output still has one line, not zero.) -/
theorem wrapCellSpans_truncates (spans : List Span) (maxWidth maxLines : Nat)
    (baseStyle : Style) (hml : 1 ≤ maxLines)
    (hreq : maxLines < (packCellSpans spans maxWidth baseStyle).length) :
    (wrapCellSpans spans maxWidth maxLines baseStyle).length = maxLines ∧
    (∃ pre, (wrapCellSpans spans maxWidth maxLines baseStyle).getLast? =
        some (pre ++ [ellipsisSpan]) ∧ lineWidth pre ≤ maxWidth - 1) ∧
    wrapCellSpans spans maxWidth maxLines baseStyle =
      (packCellSpans spans maxWidth baseStyle).take (maxLines - 1) ++
        [truncateLineSpans
            ((packCellSpans spans maxWidth baseStyle).getD (maxLines - 1) [])
            (maxWidth - 1) ++ [ellipsisSpan]] := by
  by_cases hfit :
      ((flattenToStyledChars spans baseStyle).map fun t => t.2.1).sum ≤ maxWidth
  · exfalso
    have hp : packCellSpans spans maxWidth baseStyle =
        [spans.map fun s => ⟨s.content, baseStyle.patch s.style⟩] := by
      simp only [packCellSpans, if_pos hfit]
    rw [hp] at hreq
    simp only [List.length_singleton] at hreq
    omega
  · have hwrap : wrapCellSpans spans maxWidth maxLines baseStyle =
        wrapWordsLoop maxWidth maxLines
          (splitIntoWords (flattenToStyledChars spans baseStyle)) [] [] 0 := by
      simp only [wrapCellSpans, if_neg hfit]
    have hpack : packCellSpans spans maxWidth baseStyle =
        packWordsLoop maxWidth
          (splitIntoWords (flattenToStyledChars spans baseStyle)) [] [] 0 := by
      simp only [packCellSpans, if_neg hfit]
    have hwne : ∀ word ∈ splitIntoWords (flattenToStyledChars spans baseStyle),
        word.chars ≠ [] :=
      splitGo_chars_ne (flattenToStyledChars spans baseStyle) [] 0
    have hsim := wrapWordsLoop_sim maxWidth maxLines hml
      (splitIntoWords (flattenToStyledChars spans baseStyle)) [] [] 0 hwne
      (by simpa using hml)
    rw [hpack] at hreq
    rcases hsim with ⟨_heq, hle⟩ | ⟨_hlt, heq⟩
    · omega
    · have hlenr : ((packWordsLoop maxWidth
          (splitIntoWords (flattenToStyledChars spans baseStyle)) [] [] 0).take
            (maxLines - 1)).length = maxLines - 1 := by
        rw [List.length_take]
        omega
      refine ⟨?_, ?_, ?_⟩
      · rw [hwrap, heq]
        simp only [List.length_append, List.length_cons, List.length_nil, hlenr]
        omega
      · refine ⟨truncateLineSpans
            ((packWordsLoop maxWidth
              (splitIntoWords (flattenToStyledChars spans baseStyle)) [] [] 0).getD
              (maxLines - 1) []) (maxWidth - 1), ?_, ?_⟩
        · rw [hwrap, heq]
          exact List.getLast?_concat _
        · exact truncateLineSpans_width _ _
      · rw [hwrap, hpack, heq]

/-- C3, counterexample to the claim as stated: the span `"aaa"` at max
width 2 needs two lines to pack, which is more than the limit 0, yet
`wrap_cell_spans` with `max_lines = 0` still outputs one (truncated) line,
not zero lines. -/
theorem wrapCellSpans_truncates_cex :
    0 < (packCellSpans [⟨['a', 'a', 'a'], Style.default⟩] 2 Style.default).length ∧
      (wrapCellSpans [⟨['a', 'a', 'a'], Style.default⟩] 2 0 Style.default).length ≠ 0 := by
  constructor
  · decide
  · decide

/-- C3 witness: the amended theorem applied at a concrete wrap call
(`"aa bb cc"` at max width 2 with a 2-line limit), read off at the output
line count. -/
theorem wrapCellSpans_truncates_witness :
    (wrapCellSpans [⟨['a', 'a', ' ', 'b', 'b', ' ', 'c', 'c'], Style.default⟩] 2 2
      Style.default).length = 2 :=
  (wrapCellSpans_truncates [⟨['a', 'a', ' ', 'b', 'b', ' ', 'c', 'c'], Style.default⟩]
    2 2 Style.default (by decide) (by decide)).1

/-! ## Table renderer (`render_table` and helpers, `src/render.rs:441`) -/

/-- Column alignments (`pulldown_cmark::Alignment`; the bare name
`Alignment` is already taken in Lean's root namespace). -/
inductive ColAlignment where
  | none
  | left
  | center
  | right
deriving DecidableEq

/-- The `│` vertical border character. -/
def vbar : Char := '│'

/-- The `─` horizontal border character. -/
def hbar : Char := '─'

/-- `cell_text_width` (lines 497-499). -/
def cellTextWidth (spans : List Span) : Nat :=
  (spans.map Span.width).sum

/-- The per-column loop of `build_border` (lines 560-565): `w + 2` rule
characters per column, then the mid connector, or the right connector
after the last column. -/
def borderSegs : List Nat → Char → Char → List Char
  | [], _, _ => []
  | [w], _, right => List.replicate (w + 2) hbar ++ [right]
  | w :: rest, mid, right => List.replicate (w + 2) hbar ++ [mid] ++ borderSegs rest mid right

/-- `build_border` (lines 557-567): one single-span line. -/
def buildBorder (widths : List Nat) (left mid right : Char) (style : Style) : List Span :=
  [Span.mk (left :: borderSegs widths mid right) style]

/-- `build_empty_row` (lines 756-769). -/
def buildEmptyRow (widths : List Nat) (borderStyle : Style) (bgStyle : Option Style) :
    List Span :=
  let padStyle := bgStyle.getD Style.default
  Span.mk [vbar] borderStyle ::
    (widths.map fun w =>
      [Span.mk (List.replicate (w + 2) ' ') padStyle, Span.mk [vbar] borderStyle]).flatten

/-- The per-span zebra background fill of `build_wrapped_row`
(lines 826-834): when the row has a background style, a cell span with no
explicit background of its own gets the row background; a span that sets
its own background keeps it unchanged. -/
def applyRowBg (bgStyle : Option Style) (sp : Span) : Span :=
  match bgStyle with
  | Option.none => sp
  | Option.some bg =>
    match sp.style.bg, bg.bg with
    | Option.none, Option.some c => ⟨sp.content, sp.style.bgC c⟩
    | _, _ => sp

/-- One column's contribution to a visual row of `build_wrapped_row`
(lines 802-843): one space of padding, alignment padding (only on the
first visual row), the cell spans run through the zebra fill, right
padding, one space, and the column border. -/
def cellSegment (bgStyle : Option Style) (borderStyle : Style) (align : ColAlignment)
    (vrow : Nat) (maxW : Nat) (cellLine : Option (List Span)) : List Span :=
  let contentLen := match cellLine with
    | Option.none => 0
    | Option.some l => (l.map Span.width).sum
  let padding := maxW - contentLen
  let pads := if vrow = 0 then
      match align with
      | ColAlignment.center => (padding / 2, padding - padding / 2)
      | ColAlignment.right => (padding, 0)
      | _ => (0, padding)
    else (0, padding)
  let padStyle := bgStyle.getD Style.default
  [Span.mk [' '] padStyle] ++
    (if 0 < pads.1 then [Span.mk (List.replicate pads.1 ' ') padStyle] else []) ++
    (match cellLine with
     | Option.none => []
     | Option.some cellSpans => cellSpans.map (applyRowBg bgStyle)) ++
    (if 0 < pads.2 then [Span.mk (List.replicate pads.2 ' ') padStyle] else []) ++
    [Span.mk [' '] padStyle, Span.mk [vbar] borderStyle]

/-- `build_wrapped_row` (lines 771-853). -/
def buildWrappedRow (cells : List (List Span)) (widths : List Nat)
    (alignments : List ColAlignment) (borderStyle cellBaseStyle : Style)
    (rowBg : Option Color) (maxLines : Nat) : List (List Span) :=
  let bgStyle := rowBg.map fun c => Style.default.bgC c
  let wrapped := (List.range widths.length).map fun i =>
    wrapCellSpans (cells.getD i []) (widths.getD i 0) maxLines cellBaseStyle
  let numVisualRows := ((wrapped.map List.length).max?).getD 1
  let contentRows := (List.range numVisualRows).map fun vrow =>
    Span.mk [vbar] borderStyle ::
      ((List.range widths.length).map fun i =>
        cellSegment bgStyle borderStyle (alignments.getD i ColAlignment.none) vrow
          (widths.getD i 0) (wrapped.getD i [])[vrow]?).flatten
  (if 1 < numVisualRows then [buildEmptyRow widths borderStyle Option.none] else []) ++
    contentRows ++
    (if 1 < numVisualRows then [buildEmptyRow widths borderStyle Option.none] else [])

/-- The zebra-stripe background chosen for body row `row_idx` in
`render_table` (lines 478-480): `Some(Color::Indexed(235))` on odd row
indices, `None` on even ones. -/
def zebraBgForRow (rowIdx : Nat) : Option Color :=
  if rowIdx % 2 = 1 then some (Color.indexed 235) else none

/-- The per-column natural width computation of `render_table`
(lines 447-458): the maximum of the header cell's width and every body
cell's width in that column, floored at 3. -/
def naturalWidths (header : List (List Span)) (rows : List (List (List Span))) :
    List Nat :=
  (List.range header.length).map fun i =>
    let headerW := cellTextWidth (header.getD i [])
    let maxBody := ((rows.map fun row =>
      match row[i]? with
      | Option.none => 0
      | Option.some c => cellTextWidth c).max?).getD 0
    max (max headerW maxBody) 3

/-! ## Document state machine (`Renderer`, `src/render.rs:22-495`)

The markdown tokenizer is external (§6 of the spec): the machine consumes
an explicit list of `Event`s.  The syntax highlighter is external too and
is passed as a function `hl` from code text and optional language tag to
highlighted lines. -/

/-- `pulldown_cmark::HeadingLevel`. -/
inductive HeadingLevel where
  | h1
  | h2
  | h3
  | h4
  | h5
  | h6
deriving DecidableEq

/-- `pulldown_cmark::CodeBlockKind`: indented, or fenced with a language
string. -/
inductive CodeBlockKind where
  | indented
  | fenced (lang : List Char)
deriving DecidableEq

/-- The start tags consumed by `start_tag` (lines 128-245).  Payloads the
renderer ignores (heading ids and classes, blockquote kind, link type and
title) are omitted; tags that fall into the catch-all `_ => {}` arm are
collapsed into `other`. -/
inductive Tag where
  | heading (level : HeadingLevel)
  | paragraph
  | blockQuote
  | list (start : Option Nat)
  | item
  | emphasis
  | strong
  | strikethrough
  | link (destUrl : List Char)
  | codeBlock (kind : CodeBlockKind)
  | table (alignments : List ColAlignment)
  | tableHead
  | tableRow
  | tableCell
  | other
deriving DecidableEq

/-- The end tags consumed by `end_tag` (lines 247-335); ignored payloads
are omitted and the catch-all arm is `other`. -/
inductive TagEnd where
  | heading
  | paragraph
  | blockQuote
  | list
  | item
  | emphasis
  | strong
  | strikethrough
  | link
  | codeBlock
  | table
  | tableHead
  | tableRow
  | tableCell
  | other
deriving DecidableEq

/-- `pulldown_cmark::Event` as dispatched by `process` (lines 107-126). -/
inductive Event where
  | start (tag : Tag)
  | end_ (tag : TagEnd)
  | text (s : List Char)
  | code (s : List Char)
  | softBreak
  | hardBreak
  | rule
  | taskListMarker (checked : Bool)
  | html (s : List Char)
  | inlineHtml (s : List Char)
  | footnoteReference (label : List Char)
  | inlineMath (s : List Char)
  | displayMath (s : List Char)
deriving DecidableEq

/-- `ListState` (lines 17-20); the counter is a Rust `u64`. -/
structure ListState where
  ordered : Bool
  counter : Nat
deriving DecidableEq

/-- Wrap-around of the `u64` ordered-list counter. -/
def u64wrap (n : Nat) : Nat :=
  n % 2 ^ 64

/-- `Renderer` (lines 22-40).  The `Vec`-based stacks (`style_stack`,
`list_stack`) keep their top as the Rust `Vec`'s last element; the
embedding stores the top at the list head. -/
structure Renderer where
  lines : List (List Span)
  spans : List Span
  styleStack : List Style
  listStack : List ListState
  blockquoteDepth : Nat
  inCodeBlock : Bool
  codeLang : Option (List Char)
  codeBuf : List Char
  inTable : Bool
  tableAlignments : List ColAlignment
  tableHeader : List (List Span)
  tableRows : List (List (List Span))
  currentCell : List Span
  inTableHeader : Bool
  linkUrl : List Char
  itemParagraphCount : Nat
  width : Nat
deriving DecidableEq

/-- `Renderer::new` (lines 43-63). -/
def Renderer.new (width : Nat) : Renderer where
  lines := []
  spans := []
  styleStack := [Style.default]
  listStack := []
  blockquoteDepth := 0
  inCodeBlock := false
  codeLang := none
  codeBuf := []
  inTable := false
  tableAlignments := []
  tableHeader := []
  tableRows := []
  currentCell := []
  inTableHeader := false
  linkUrl := []
  itemParagraphCount := 0
  width := width

/-- `current_style` (lines 65-67): top of the style stack, default when
empty. -/
def currentStyle (r : Renderer) : Style :=
  (r.styleStack.head?).getD Style.default

/-- `push_style` (lines 69-72). -/
def pushStyle (r : Renderer) (modifier : Style → Style) : Renderer :=
  { r with styleStack := modifier (currentStyle r) :: r.styleStack }

/-- `pop_style` (lines 74-78): a pop is a no-op unless the stack has more
than one entry. -/
def popStyle (r : Renderer) : Renderer :=
  if 1 < r.styleStack.length then { r with styleStack := r.styleStack.tail } else r

/-- `flush_line` (lines 80-85). -/
def flushLine (r : Renderer) : Renderer :=
  if r.spans.isEmpty then r else { r with lines := r.lines ++ [r.spans], spans := [] }

/-- `push_blank` (lines 87-90): flush, then append one empty line. -/
def pushBlank (r : Renderer) : Renderer :=
  let r2 := flushLine r
  { r2 with lines := r2.lines ++ [[]] }

/-- `blockquote_prefix` (lines 92-101, renamed here): one dark-gray
`"│ "` span per quote depth level. -/
def bqMarks (r : Renderer) : List Span :=
  List.replicate r.blockquoteDepth (Span.mk [vbar, ' '] (Style.default.fgC Color.darkGray))

/-- `list_indent` (lines 103-105): `"  ".repeat(len - 1)`, i.e.
`2 * (len - 1)` spaces. -/
def listIndent (r : Renderer) : List Char :=
  List.replicate (2 * (r.listStack.length - 1)) ' '

/-- `render_table` (lines 441-494): a table with an empty header renders
nothing; otherwise borders, the bold wrapped header row, the separator,
the zebra-striped wrapped body rows and the bottom border are appended,
each cell limited to 5 visual lines. -/
def renderTable (r : Renderer) : Renderer :=
  if r.tableHeader.length = 0 then r
  else
    let naturalW := naturalWidths r.tableHeader r.tableRows
    let colWidths := budgetColumns naturalW r.width
    let borderStyle := Style.default.fgC Color.darkGray
    let top := buildBorder colWidths '┌' '┬' '┐' borderStyle
    let headerLines := buildWrappedRow r.tableHeader colWidths r.tableAlignments
      borderStyle (Style.default.addModifier mBOLD) none 5
    let sep := buildBorder colWidths '├' '┼' '┤' borderStyle
    let bodyLines := (r.tableRows.enum.map fun p =>
      buildWrappedRow p.2 colWidths r.tableAlignments borderStyle Style.default
        (zebraBgForRow p.1) 5).flatten
    let bottom := buildBorder colWidths '└' '┴' '┘' borderStyle
    { r with lines := r.lines ++ [top] ++ headerLines ++ [sep] ++ bodyLines ++ [bottom] }

/-- ASCII whitespace test for `split_whitespace` on the fenced-code
language tag (which in practice only contains ASCII). -/
def isWS (c : Char) : Bool :=
  c == ' ' || c == '\t' || c == '\n' || c == '\r'

/-- `lang.split_whitespace().next().unwrap_or("")` (line 213). -/
def firstToken (l : List Char) : List Char :=
  (l.dropWhile isWS).takeWhile fun c => ! isWS c

/-- Strip one trailing carriage return, as `str::lines` does on `\r\n`. -/
def chopCR (l : List Char) : List Char :=
  if l.getLast? = some '\r' then l.dropLast else l

/-- Accumulator loop for `str::lines`: split at `\n`, no empty final line
for a trailing newline. -/
def strLinesGo : List Char → List Char → List (List Char)
  | [], acc => if acc.isEmpty then [] else [acc]
  | c :: rest, acc =>
    if c = '\n' then chopCR acc :: strLinesGo rest []
    else strLinesGo rest (acc ++ [c])

/-- `str::lines` (used by `raw_html`, line 403). -/
def strLines (s : List Char) : List (List Char) :=
  strLinesGo s []

/-- The backtick character (U+0060), used by `inline_code`. -/
def btick : Char := Char.ofNat 96

/-- `start_tag` (lines 128-245). -/
def startTag (r : Renderer) (tag : Tag) : Renderer :=
  match tag with
  | Tag.heading level =>
    let r := flushLine r
    let cp : Color × List Char := match level with
      | HeadingLevel.h1 => (Color.cyan, ['#', ' '])
      | HeadingLevel.h2 => (Color.green, ['#', '#', ' '])
      | HeadingLevel.h3 => (Color.yellow, ['#', '#', '#', ' '])
      | _ => (Color.white, ['#', '#', '#', '#', ' '])
    let style := (Style.default.fgC cp.1).addModifier mBOLD
    { r with styleStack := style :: r.styleStack,
             spans := r.spans ++ [Span.mk cp.2 style] }
  | Tag.paragraph =>
    if r.inTable then r
    else if ¬ r.listStack.isEmpty then
      let r2 := { r with itemParagraphCount := r.itemParagraphCount + 1 }
      if 1 < r2.itemParagraphCount then flushLine r2 else r2
    else flushLine r
  | Tag.blockQuote =>
    let r := flushLine r
    { r with blockquoteDepth := r.blockquoteDepth + 1 }
  | Tag.list start =>
    let r := flushLine r
    { r with listStack := ⟨start.isSome, start.getD 1⟩ :: r.listStack }
  | Tag.item =>
    let r := flushLine r
    let r := { r with itemParagraphCount := 0 }
    let indent := listIndent r
    let ps := bqMarks r
    match r.listStack with
    | [] => { r with spans := ps }
    | state :: restStack =>
      if state.ordered then
        { r with listStack := ⟨state.ordered, u64wrap (state.counter + 1)⟩ :: restStack,
                 spans := ps ++
                   [Span.mk (indent ++ Nat.toDigits 10 state.counter ++ ['.', ' '])
                     (Style.default.fgC Color.darkGray)] }
      else
        let marker : Char := match r.listStack.length with
          | 1 => '•'
          | 2 => '◦'
          | _ => '▪'
        { r with spans := ps ++
            [Span.mk (indent ++ [marker, ' ']) (Style.default.fgC Color.darkGray)] }
  | Tag.emphasis => pushStyle r fun s => s.addModifier mITALIC
  | Tag.strong => pushStyle r fun s => s.addModifier mBOLD
  | Tag.strikethrough => pushStyle r fun s => s.addModifier mCROSSED
  | Tag.link destUrl =>
    let r := pushStyle r fun s => (s.fgC Color.blue).addModifier mUNDERLINED
    { r with linkUrl := destUrl }
  | Tag.codeBlock kind =>
    let r := flushLine r
    let lang := match kind with
      | CodeBlockKind.fenced l =>
        let tok := firstToken l
        if tok.isEmpty then none else some tok
      | CodeBlockKind.indented => none
    { r with inCodeBlock := true, codeLang := lang, codeBuf := [] }
  | Tag.table alignments =>
    let r := flushLine r
    { r with inTable := true, tableAlignments := alignments,
             tableHeader := [], tableRows := [] }
  | Tag.tableHead => { r with inTableHeader := true }
  | Tag.tableRow =>
    if ¬ r.inTableHeader then { r with tableRows := r.tableRows ++ [[]] } else r
  | Tag.tableCell => { r with currentCell := [] }
  | Tag.other => r

/-- `end_tag` (lines 247-335). -/
def endTag (hl : List Char → Option (List Char) → List (List Span))
    (r : Renderer) (tag : TagEnd) : Renderer :=
  match tag with
  | TagEnd.heading => pushBlank (flushLine (popStyle r))
  | TagEnd.paragraph =>
    if r.inTable then r
    else
      let r := flushLine r
      if r.listStack.isEmpty then pushBlank r else r
  | TagEnd.blockQuote =>
    flushLine { r with blockquoteDepth := r.blockquoteDepth - 1 }
  | TagEnd.list =>
    let r := { r with listStack := r.listStack.tail }
    if r.listStack.isEmpty then pushBlank (flushLine r) else r
  | TagEnd.item => flushLine r
  | TagEnd.emphasis => popStyle r
  | TagEnd.strong => popStyle r
  | TagEnd.strikethrough => popStyle r
  | TagEnd.link =>
    let r := popStyle r
    { r with linkUrl := [],
             spans := r.spans ++
               [Span.mk ((' ' :: '(' :: r.linkUrl) ++ [')'])
                 (Style.default.fgC Color.darkGray)] }
  | TagEnd.codeBlock =>
    let code := r.codeBuf
    let lang := r.codeLang
    let r := { r with inCodeBlock := false, codeBuf := [], codeLang := none }
    let highlighted := hl code lang
    let pre := bqMarks r
    let newLines := highlighted.map fun line =>
      pre ++ [Span.mk [' ', ' '] Style.default] ++ line
    pushBlank { r with lines := r.lines ++ newLines }
  | TagEnd.table =>
    let r := renderTable r
    pushBlank { r with inTable := false }
  | TagEnd.tableHead => { r with inTableHeader := false }
  | TagEnd.tableRow => r
  | TagEnd.tableCell =>
    let cell := r.currentCell
    let r := { r with currentCell := [] }
    if r.inTableHeader then { r with tableHeader := r.tableHeader ++ [cell] }
    else
      match r.tableRows.getLast? with
      | none => r
      | some row => { r with tableRows := r.tableRows.dropLast ++ [row ++ [cell]] }
  | TagEnd.other => r

/-- `text` (lines 337-355). -/
def textEvent (r : Renderer) (text : List Char) : Renderer :=
  if r.inCodeBlock then { r with codeBuf := r.codeBuf ++ text }
  else if r.inTable then
    { r with currentCell := r.currentCell ++ [Span.mk text (currentStyle r)] }
  else
    let r := if 0 < r.blockquoteDepth ∧ r.spans.isEmpty then
        { r with spans := bqMarks r }
      else r
    { r with spans := r.spans ++ [Span.mk text (currentStyle r)] }

/-- `inline_code` (lines 357-370). -/
def inlineCode (r : Renderer) (code : List Char) : Renderer :=
  let sp := Span.mk (btick :: code ++ [btick]) (Style.default.bgC (Color.indexed 239))
  if r.inTable then { r with currentCell := r.currentCell ++ [sp] }
  else { r with spans := r.spans ++ [sp] }

/-- `soft_break` (lines 372-374): a single raw space. -/
def softBreakEv (r : Renderer) : Renderer :=
  { r with spans := r.spans ++ [Span.mk [' '] Style.default] }

/-- `hard_break` (lines 376-381). -/
def hardBreakEv (r : Renderer) : Renderer :=
  let r := flushLine r
  if 0 < r.blockquoteDepth then { r with spans := bqMarks r } else r

/-- `rule` (lines 383-391). -/
def ruleEv (r : Renderer) : Renderer :=
  let r := flushLine r
  pushBlank { r with lines := r.lines ++
    [[Span.mk (List.replicate (r.width - 2) hbar) (Style.default.fgC Color.darkGray)]] }

/-- `task_marker` (lines 393-399). -/
def taskMarkerEv (r : Renderer) (checked : Bool) : Renderer :=
  let marker := if checked then ['[', '✓', ']', ' '] else ['[', ' ', ']', ' ']
  { r with spans := r.spans ++
    [Span.mk marker (Style.default.fgC (if checked then Color.green else Color.darkGray))] }

/-- `raw_html` (lines 401-409). -/
def rawHtmlEv (r : Renderer) (html : List Char) : Renderer :=
  let r := flushLine r
  { r with lines := r.lines ++ (strLines html).map fun line =>
      [Span.mk line (Style.default.addModifier mDIM)] }

/-- `inline_raw_html` (lines 411-416). -/
def inlineRawHtmlEv (r : Renderer) (html : List Char) : Renderer :=
  { r with spans := r.spans ++ [Span.mk html (Style.default.addModifier mDIM)] }

/-- `footnote_ref` (lines 418-423). -/
def footnoteRefEv (r : Renderer) (label : List Char) : Renderer :=
  { r with spans := r.spans ++
    [Span.mk ('[' :: label ++ [']']) (Style.default.fgC Color.cyan)] }

/-- `math` (lines 425-430). -/
def mathEv (r : Renderer) (math : List Char) : Renderer :=
  { r with spans := r.spans ++
    [Span.mk math ((Style.default.fgC Color.yellow).addModifier mITALIC)] }

/-- `display_math` (lines 432-439). -/
def displayMathEv (r : Renderer) (math : List Char) : Renderer :=
  let r := flushLine r
  pushBlank { r with lines := r.lines ++
    [[Span.mk math ((Style.default.fgC Color.yellow).addModifier mITALIC)]] }

/-- The event dispatch of `process` (lines 107-126). -/
def processEvent (hl : List Char → Option (List Char) → List (List Span))
    (r : Renderer) (e : Event) : Renderer :=
  match e with
  | Event.start tag => startTag r tag
  | Event.end_ tag => endTag hl r tag
  | Event.text s => textEvent r s
  | Event.code s => inlineCode r s
  | Event.softBreak => softBreakEv r
  | Event.hardBreak => hardBreakEv r
  | Event.rule => ruleEv r
  | Event.taskListMarker checked => taskMarkerEv r checked
  | Event.html s => rawHtmlEv r s
  | Event.inlineHtml s => inlineRawHtmlEv r s
  | Event.footnoteReference label => footnoteRefEv r label
  | Event.inlineMath s => mathEv r s
  | Event.displayMath s => displayMathEv r s

/-- The event loop of `process`. -/
def processEvents (hl : List Char → Option (List Char) → List (List Span))
    (r : Renderer) (events : List Event) : Renderer :=
  events.foldl (processEvent hl) r

/-- `process` followed by the final flush (lines 107-126): the full render
pass from an event stream to the output document. -/
def processAll (hl : List Char → Option (List Char) → List (List Span))
    (width : Nat) (events : List Event) : List (List Span) :=
  (flushLine (processEvents hl (Renderer.new width) events)).lines

theorem flushLine_styleStack (r : Renderer) : (flushLine r).styleStack = r.styleStack := by
  unfold flushLine
  split <;> rfl

theorem flushLine_spans_fields (r : Renderer) :
    (flushLine r).listStack = r.listStack ∧ (flushLine r).blockquoteDepth = r.blockquoteDepth ∧
      (flushLine r).linkUrl = r.linkUrl ∧ (flushLine r).spans = [] ∨ flushLine r = r := by
  unfold flushLine
  by_cases h : r.spans.isEmpty
  · right
    rw [if_pos h]
  · left
    rw [if_neg h]
    exact ⟨rfl, rfl, rfl, rfl⟩

/-- C5 (amended): a table that ends with zero columns (an empty header)
contributes no border lines and no content lines — `render_table` appends
nothing and leaves the renderer unchanged — but the table-end handler
still appends the standard post-table blank line, exactly as it does
after every table.  (The claim's original form, that *no* lines at all
are appended for such a table, is refuted by `renderTable_zero_cols_cex`
below: the blank line is appended unconditionally.) -/
theorem renderTable_zero_cols (hl : List Char → Option (List Char) → List (List Span))
    (r : Renderer) (hh : r.tableHeader = []) :
    renderTable r = r ∧
      (r.spans = [] → (endTag hl r TagEnd.table).lines = r.lines ++ [[]]) := by
  have hrt : renderTable r = r := by
    simp [renderTable, hh]
  refine ⟨hrt, fun hs => ?_⟩
  simp [endTag, hrt, pushBlank, flushLine, hs]

/-- C5, counterexample to the claim as stated: processing a zero-column
table (table start immediately followed by table end) appends one blank
line to the document, so the table does not contribute nothing. -/
theorem renderTable_zero_cols_cex :
    (processEvents (fun _ _ => []) (Renderer.new 80)
      [Event.start (Tag.table []), Event.end_ TagEnd.table]).lines ≠ [] := by
  decide

/-- C5 witness: the amended theorem applied at the fresh renderer (whose
table header is empty). -/
theorem renderTable_zero_cols_witness :
    renderTable (Renderer.new 80) = Renderer.new 80 ∧
      (endTag (fun _ _ => []) (Renderer.new 80) TagEnd.table).lines = [[]] :=
  ⟨(renderTable_zero_cols (fun _ _ => []) (Renderer.new 80) rfl).1,
   (renderTable_zero_cols (fun _ _ => []) (Renderer.new 80) rfl).2 rfl⟩

/-- C6: zebra striping.  `render_table` tints exactly the odd body rows
with `Indexed 235`; inside `build_wrapped_row` the tint is applied to
exactly those cell spans that have no explicit background of their own
(changing nothing but their background), while a span with its own
background always stays untouched. -/
theorem zebra_fills_only_unset :
    (∀ i, i % 2 = 1 → zebraBgForRow i = some (Color.indexed 235)) ∧
    (∀ i, i % 2 = 0 → zebraBgForRow i = none) ∧
    (∀ sp : Span, sp.style.bg = none →
      applyRowBg (some (Style.default.bgC (Color.indexed 235))) sp =
        ⟨sp.content, sp.style.bgC (Color.indexed 235)⟩) ∧
    (∀ (sp : Span) (b : Color) (bgStyle : Option Style), sp.style.bg = some b →
      applyRowBg bgStyle sp = sp) := by
  refine ⟨fun i hi => by simp [zebraBgForRow, hi], fun i hi => by simp [zebraBgForRow, hi],
    fun sp h => ?_, fun sp b bgStyle h => ?_⟩
  · simp [applyRowBg, h, Style.bgC, Style.default]
  · rcases bgStyle with _ | bg
    · rfl
    · rcases hbg : bg.bg with _ | c <;> simp [applyRowBg, h, hbg]

/-- C6 witness: the theorem applied at row index 1 and 2 and at two
concrete spans, one without and one with an explicit background. -/
theorem zebra_fills_only_unset_witness :
    zebraBgForRow 1 = some (Color.indexed 235) ∧
    zebraBgForRow 2 = none ∧
    applyRowBg (some (Style.default.bgC (Color.indexed 235)))
        (Span.mk ['x'] Style.default) =
      ⟨['x'], Style.default.bgC (Color.indexed 235)⟩ ∧
    applyRowBg (some (Style.default.bgC (Color.indexed 235)))
        (Span.mk ['x'] (Style.default.bgC Color.blue)) =
      Span.mk ['x'] (Style.default.bgC Color.blue) :=
  ⟨zebra_fills_only_unset.1 1 rfl, zebra_fills_only_unset.2.1 2 rfl,
   zebra_fills_only_unset.2.2.1 (Span.mk ['x'] Style.default) rfl,
   zebra_fills_only_unset.2.2.2 (Span.mk ['x'] (Style.default.bgC Color.blue))
     Color.blue (some (Style.default.bgC (Color.indexed 235))) rfl⟩

theorem popStyle_other_fields (r : Renderer) :
    (popStyle r).spans = r.spans ∧ (popStyle r).linkUrl = r.linkUrl := by
  unfold popStyle
  split <;> exact ⟨rfl, rfl⟩

/-- C9: when a link's inline content closes, `end_tag` appends exactly one
extra span to the current line — a space, an opening parenthesis, the
stored destination URL, and a closing parenthesis, styled dark gray —
immediately after the link text, and clears the stored URL. -/
theorem link_end_appends_url (hl : List Char → Option (List Char) → List (List Span))
    (r : Renderer) :
    (endTag hl r TagEnd.link).spans =
      r.spans ++ [Span.mk ((' ' :: '(' :: r.linkUrl) ++ [')'])
        (Style.default.fgC Color.darkGray)] ∧
    (endTag hl r TagEnd.link).linkUrl = [] := by
  have h1 := popStyle_other_fields r
  constructor
  · show (popStyle r).spans ++ [Span.mk ((' ' :: '(' :: (popStyle r).linkUrl) ++ [')'])
      (Style.default.fgC Color.darkGray)] = _
    rw [h1.1, h1.2]
  · rfl

theorem pushBlank_styleStack (r : Renderer) : (pushBlank r).styleStack = r.styleStack := by
  show (flushLine r).styleStack = r.styleStack
  exact flushLine_styleStack r

theorem renderTable_styleStack (r : Renderer) : (renderTable r).styleStack = r.styleStack := by
  unfold renderTable
  split <;> rfl

theorem popStyle_len (r : Renderer) (h : 1 ≤ r.styleStack.length) :
    1 ≤ (popStyle r).styleStack.length := by
  by_cases h2 : 1 < r.styleStack.length
  · simp only [popStyle, if_pos h2, List.length_tail]
    omega
  · simp only [popStyle, if_neg h2]
    exact h

theorem startTag_styleStack_len (r : Renderer) (tag : Tag)
    (h : 1 ≤ r.styleStack.length) : 1 ≤ (startTag r tag).styleStack.length := by
  cases tag with
  | heading level =>
    simp [startTag]
  | paragraph =>
    simp only [startTag]
    split
    · exact h
    · split
      · split
        · rw [flushLine_styleStack]
          exact h
        · exact h
      · rw [flushLine_styleStack]
        exact h
  | blockQuote =>
    show 1 ≤ (flushLine r).styleStack.length
    rw [flushLine_styleStack]
    exact h
  | list start =>
    show 1 ≤ (flushLine r).styleStack.length
    rw [flushLine_styleStack]
    exact h
  | item =>
    simp only [startTag]
    split
    · rw [flushLine_styleStack]
      exact h
    · split
      · rw [flushLine_styleStack]
        exact h
      · rw [flushLine_styleStack]
        exact h
  | emphasis => simp [startTag, pushStyle]
  | strong => simp [startTag, pushStyle]
  | strikethrough => simp [startTag, pushStyle]
  | link destUrl => simp [startTag, pushStyle]
  | codeBlock kind =>
    show 1 ≤ (flushLine r).styleStack.length
    rw [flushLine_styleStack]
    exact h
  | table alignments =>
    show 1 ≤ (flushLine r).styleStack.length
    rw [flushLine_styleStack]
    exact h
  | tableHead => exact h
  | tableRow =>
    simp only [startTag]
    split
    · exact h
    · exact h
  | tableCell => exact h
  | other => exact h

theorem endTag_styleStack_len (hl : List Char → Option (List Char) → List (List Span))
    (r : Renderer) (tag : TagEnd)
    (h : 1 ≤ r.styleStack.length) : 1 ≤ (endTag hl r tag).styleStack.length := by
  cases tag with
  | heading =>
    show 1 ≤ (pushBlank (flushLine (popStyle r))).styleStack.length
    rw [pushBlank_styleStack, flushLine_styleStack]
    exact popStyle_len r h
  | paragraph =>
    simp only [endTag]
    split
    · exact h
    · split
      · rw [pushBlank_styleStack, flushLine_styleStack]
        exact h
      · rw [flushLine_styleStack]
        exact h
  | blockQuote =>
    show 1 ≤ (flushLine { r with blockquoteDepth := r.blockquoteDepth - 1 }).styleStack.length
    rw [flushLine_styleStack]
    exact h
  | list =>
    simp only [endTag]
    split
    · rw [pushBlank_styleStack, flushLine_styleStack]
      exact h
    · exact h
  | item =>
    show 1 ≤ (flushLine r).styleStack.length
    rw [flushLine_styleStack]
    exact h
  | emphasis => exact popStyle_len r h
  | strong => exact popStyle_len r h
  | strikethrough => exact popStyle_len r h
  | link =>
    show 1 ≤ (popStyle r).styleStack.length
    exact popStyle_len r h
  | codeBlock =>
    show 1 ≤ (pushBlank _).styleStack.length
    rw [pushBlank_styleStack]
    exact h
  | table =>
    show 1 ≤ (pushBlank { renderTable r with inTable := false }).styleStack.length
    rw [pushBlank_styleStack]
    show 1 ≤ (renderTable r).styleStack.length
    rw [renderTable_styleStack]
    exact h
  | tableHead => exact h
  | tableRow => exact h
  | tableCell =>
    simp only [endTag]
    split
    · exact h
    · split
      · exact h
      · exact h
  | other => exact h

theorem processEvent_styleStack_len (hl : List Char → Option (List Char) → List (List Span))
    (r : Renderer) (e : Event)
    (h : 1 ≤ r.styleStack.length) : 1 ≤ (processEvent hl r e).styleStack.length := by
  cases e with
  | start tag => exact startTag_styleStack_len r tag h
  | end_ tag => exact endTag_styleStack_len hl r tag h
  | text s =>
    simp only [processEvent, textEvent]
    split
    · exact h
    · split
      · exact h
      · split
        · exact h
        · exact h
  | code s =>
    simp only [processEvent, inlineCode]
    split
    · exact h
    · exact h
  | softBreak => exact h
  | hardBreak =>
    simp only [processEvent, hardBreakEv]
    split
    · rw [flushLine_styleStack]
      exact h
    · rw [flushLine_styleStack]
      exact h
  | rule =>
    show 1 ≤ (pushBlank _).styleStack.length
    rw [pushBlank_styleStack]
    show 1 ≤ (flushLine r).styleStack.length
    rw [flushLine_styleStack]
    exact h
  | taskListMarker checked => exact h
  | html s =>
    show 1 ≤ (flushLine r).styleStack.length
    rw [flushLine_styleStack]
    exact h
  | inlineHtml s => exact h
  | footnoteReference label => exact h
  | inlineMath s => exact h
  | displayMath s =>
    show 1 ≤ (pushBlank _).styleStack.length
    rw [pushBlank_styleStack]
    show 1 ≤ (flushLine r).styleStack.length
    rw [flushLine_styleStack]
    exact h

/-- C7: throughout an entire render pass the style stack always contains
at least one entry: `Renderer::new` initializes it to a single default
style, `pop_style` on a stack of size 1 is a no-op, and after processing
any event stream (hence any prefix of any stream, with any highlighter
and width) the stack is still non-empty. -/
theorem styleStack_never_empties :
    (∀ width, (Renderer.new width).styleStack = [Style.default]) ∧
    (∀ r : Renderer, r.styleStack.length = 1 → popStyle r = r) ∧
    (∀ (hl : List Char → Option (List Char) → List (List Span)) (width : Nat)
      (events : List Event),
      1 ≤ (processEvents hl (Renderer.new width) events).styleStack.length) := by
  refine ⟨fun _ => rfl, fun r h1 => ?_, fun hl width events => ?_⟩
  · simp [popStyle, h1]
  · have hinv : ∀ (events : List Event) (r : Renderer), 1 ≤ r.styleStack.length →
        1 ≤ (processEvents hl r events).styleStack.length := by
      intro events
      induction events with
      | nil =>
        intro r h
        simpa [processEvents] using h
      | cons e rest ih =>
        intro r h
        have h2 := processEvent_styleStack_len hl r e h
        simpa [processEvents] using ih (processEvent hl r e) h2
    exact hinv events (Renderer.new width) (by simp [Renderer.new])

/-- C7 witness: the no-op pop applied at the fresh renderer, whose style
stack has exactly one entry. -/
theorem styleStack_never_empties_witness :
    popStyle (Renderer.new 80) = Renderer.new 80 :=
  styleStack_never_empties.2.1 (Renderer.new 80) rfl

theorem flushLine_listStack (r : Renderer) : (flushLine r).listStack = r.listStack := by
  unfold flushLine
  split <;> rfl

theorem startTag_item_ordered (r : Renderer) (c : Nat) (restS : List ListState)
    (hls : r.listStack = ⟨true, c⟩ :: restS) :
    (startTag r Tag.item).listStack = ⟨true, u64wrap (c + 1)⟩ :: restS ∧
    (startTag r Tag.item).spans = bqMarks r ++
      [Span.mk (listIndent r ++ Nat.toDigits 10 c ++ ['.', ' '])
        (Style.default.fgC Color.darkGray)] := by
  by_cases hsp : r.spans.isEmpty
  · have hfl : flushLine r = r := by simp [flushLine, hsp]
    constructor
    · simp [startTag, hfl, hls]
    · simp [startTag, hfl, hls, bqMarks, listIndent]
  · have hfl : flushLine r = { r with lines := r.lines ++ [r.spans], spans := [] } := by
      simp [flushLine, hsp]
    constructor
    · simp [startTag, hfl, hls]
    · simp [startTag, hfl, hls, bqMarks, listIndent]

/-- The event stream of `k` consecutive empty list items. -/
def itemEvents (k : Nat) : List Event :=
  (List.replicate k [Event.start Tag.item, Event.end_ TagEnd.item]).flatten

theorem processEvents_append (hl : List Char → Option (List Char) → List (List Span))
    (r : Renderer) (a b : List Event) :
    processEvents hl r (a ++ b) = processEvents hl (processEvents hl r a) b := by
  simp [processEvents, List.foldl_append]

theorem orderedItems_lines (hl : List Char → Option (List Char) → List (List Span))
    (k : Nat) :
    ∀ (r : Renderer) (c : Nat), r.listStack = [⟨true, c⟩] → r.spans = [] →
      r.blockquoteDepth = 0 → c + k < 2 ^ 64 →
      (processEvents hl r (itemEvents k)).lines =
        r.lines ++ (List.range k).map fun i =>
          [Span.mk (Nat.toDigits 10 (c + i) ++ ['.', ' '])
            (Style.default.fgC Color.darkGray)] := by
  induction k with
  | zero =>
    intro r c _hls _hsp _hbq _hlt
    simp [itemEvents, processEvents]
  | succ k ih =>
    intro r c hls hsp hbq hlt
    have hsplit : itemEvents (k + 1) =
        [Event.start Tag.item, Event.end_ TagEnd.item] ++ itemEvents k := by
      simp [itemEvents, List.replicate_succ]
    have hspe : r.spans.isEmpty := by simp [hsp]
    have hfl : flushLine r = r := by simp [flushLine, hspe]
    have hwrap : u64wrap (c + 1) = c + 1 := Nat.mod_eq_of_lt (by omega)
    have hr1 : startTag r Tag.item =
        { r with itemParagraphCount := 0,
                 listStack := [⟨true, u64wrap (c + 1)⟩],
                 spans := [Span.mk (Nat.toDigits 10 c ++ ['.', ' '])
                   (Style.default.fgC Color.darkGray)] } := by
      simp [startTag, hfl, hls, bqMarks, listIndent, hbq]
    have hr2 : endTag hl (startTag r Tag.item) TagEnd.item =
        { r with itemParagraphCount := 0,
                 listStack := [⟨true, u64wrap (c + 1)⟩],
                 spans := [],
                 lines := r.lines ++ [[Span.mk (Nat.toDigits 10 c ++ ['.', ' '])
                   (Style.default.fgC Color.darkGray)]] } := by
      rw [hr1]
      simp [endTag, flushLine]
    have hpair : processEvents hl r [Event.start Tag.item, Event.end_ TagEnd.item] =
        endTag hl (startTag r Tag.item) TagEnd.item := by
      simp [processEvents, processEvent]
    rw [hsplit, processEvents_append, hpair, hr2]
    rw [ih _ (c + 1) (by simp [hwrap]) (by simp) (by simp [hbq]) (by omega)]
    simp only [List.range_succ_eq_map, List.map_cons, List.map_map, Nat.add_zero,
      List.append_assoc, List.singleton_append]
    congr 2
    apply List.map_eq_map_iff.mpr
    intro a _ha
    have : c + 1 + a = c + (a + 1) := by omega
    simp [Function.comp, this]

/-- C10: ordered-list numbering.  Opening a list seeds the counter from
the list's start number (`true`/`n` for `Some(n)`, default 1 and
unordered for `None`); each item start on an ordered list emits the
prefix `"<counter>. "` (after the indent and any blockquote marks) and
increments the counter by one (as a `u64`); and a run of `k` items after
`Start(List(Some n))` therefore yields exactly the prefixes
`"n. "`, `"n+1. "`, …, one line each, independent of anything written in
the source
(the parser's events carry no per-item numbers at all). -/
theorem orderedList_numbering :
    (∀ (r : Renderer) (n : Nat), (startTag r (Tag.list (some n))).listStack =
        ⟨true, n⟩ :: r.listStack) ∧
    (∀ r : Renderer, (startTag r (Tag.list none)).listStack =
        ⟨false, 1⟩ :: r.listStack) ∧
    (∀ (r : Renderer) (c : Nat) (restS : List ListState),
      r.listStack = ⟨true, c⟩ :: restS →
      (startTag r Tag.item).listStack = ⟨true, u64wrap (c + 1)⟩ :: restS ∧
      (startTag r Tag.item).spans = bqMarks r ++
        [Span.mk (listIndent r ++ Nat.toDigits 10 c ++ ['.', ' '])
          (Style.default.fgC Color.darkGray)]) ∧
    (∀ (hl : List Char → Option (List Char) → List (List Span)) (width n k : Nat),
      n + k < 2 ^ 64 →
      (processEvents hl (startTag (Renderer.new width) (Tag.list (some n)))
        (itemEvents k)).lines =
        (List.range k).map fun i =>
          [Span.mk (Nat.toDigits 10 (n + i) ++ ['.', ' '])
            (Style.default.fgC Color.darkGray)]) := by
  refine ⟨fun r n => ?_, fun r => ?_, startTag_item_ordered, fun hl width n k hlt => ?_⟩
  · simp [startTag, flushLine_listStack]
  · simp [startTag, flushLine_listStack]
  · have h := orderedItems_lines hl k (startTag (Renderer.new width) (Tag.list (some n))) n
      (by simp [startTag, flushLine, Renderer.new])
      (by simp [startTag, flushLine, Renderer.new])
      (by simp [startTag, flushLine, Renderer.new]) hlt
    rw [h]
    simp [startTag, flushLine, Renderer.new]

/-- C10 witness: the increment applied at a concrete ordered-list state,
and the full run of two items of a list starting at 3, whose lines are
the `"3. "` and `"4. "` prefixes. -/
theorem orderedList_numbering_witness :
    (startTag { Renderer.new 80 with listStack := [⟨true, 7⟩] } Tag.item).listStack =
        [⟨true, u64wrap (7 + 1)⟩] ∧
    (processEvents (fun _ _ => []) (startTag (Renderer.new 80) (Tag.list (some 3)))
      (itemEvents 2)).lines =
      (List.range 2).map fun i =>
        [Span.mk (Nat.toDigits 10 (3 + i) ++ ['.', ' '])
          (Style.default.fgC Color.darkGray)] :=
  ⟨(orderedList_numbering.2.2.1 { Renderer.new 80 with listStack := [⟨true, 7⟩] }
      7 [] rfl).1,
   orderedList_numbering.2.2.2 (fun _ _ => []) 80 3 2 (by decide)⟩
